import Mathlib

/-!
# uawk-bench: benchmark execution and aggregation engine

A shallow embedding of `internal/runner/runner.go`, of `WriteSummary` in
`internal/report/report.go` and of the part of `cmd/awkbench/main.go` that configures the
runner, followed by theorems about it.

Modelling conventions:

* `time.Duration` and `int64` are `Int` with explicit two's-complement wrap-around
  (`wrap64`) after every addition and division.
* `float64` is `ℚ` with exact arithmetic in `calculateStats` and `WriteSummary`: rounding is
  not modelled there. Where a value can leave the finite range (the running product and the
  ratios of `WriteSummary`) it is a `Float64`, with overflow to an infinity and not-a-number
  results made explicit. `calculateStats64` is `calculateStats` with every `float64` operation
  rounded to binary64; it is used where rounding decides the statement (order independence).
* a Go slice is a `List`; indexing `d[i]` is `List.getD d i 0` (every access the code makes is
  in bounds).
* `Runner.Run` spawns an external process; it is an oracle `run : Nat → Result` giving the
  outcome of the `k`-th call (counting from `0`).
* where aliasing matters (the argument lists of `Run` and `RunInline`) a slice is a window into
  a backing array of a heap, and `append` reuses the array when the capacity suffices.
* library and runtime operations (`exec.LookPath`, `os.Stat`, `os.Getenv`, `filepath.Join`,
  `math.Pow`, `sort.Slice`, the enumeration order of a map) are parameters.
-/

namespace UawkBench

/-! ## Machine integers -/

/-- Two's-complement reduction of an integer to the `int64` range. -/
def wrap64 (x : Int) : Int := (x + 2 ^ 63) % 2 ^ 64 - 2 ^ 63

/-- The value is representable as an `int64`. -/
def inInt64 (x : Int) : Prop := -2 ^ 63 ≤ x ∧ x < 2 ^ 63

instance (x : Int) : Decidable (inInt64 x) := by
  unfold inInt64; infer_instance

/-- Go `a + b` on `int64`. -/
def add64 (a b : Int) : Int := wrap64 (a + b)

/-- Go `a / b` on `int64` (quotient truncated toward zero), for `b ≠ 0`. -/
def div64 (a b : Int) : Int := wrap64 (Int.tdiv a b)

/-! ## Data model -/

/-- Go `type AWK struct`. -/
structure AWK where
  Name : String
  Command : String
  Args : List String
  deriving DecidableEq, Repr

/-- Go `type Result struct`; `Error = none` is the nil error. -/
structure Result where
  AWK : String
  Program : String
  Duration : Int
  Output : String
  Error : Option String
  deriving DecidableEq, Repr

/-- Go `type BenchmarkResult struct`. -/
structure BenchmarkResult where
  AWK : String
  Program : String
  Runs : Int
  Min : Int
  Max : Int
  Mean : Int
  Median : Int
  StdDev : Int
  Throughput : ℚ
  deriving DecidableEq, Repr

/-- Go `type Runner struct`. -/
structure Runner where
  AWKs : List AWK
  Timeout : Int
  Warmup : Int
  Runs : Int
  deriving DecidableEq, Repr

/-- Go `time.Second`, in nanoseconds. -/
def Second : Int := 1000000000

/-- Go `time.Minute`, in nanoseconds. -/
def Minute : Int := 60 * Second

/-- Go `NewRunner`. -/
def NewRunner : Runner :=
  { AWKs := [], Timeout := 5 * Minute, Warmup := 1, Runs := 5 }

/-! ## `sortDurations` -/

/-- Inner loop of `sortDurations`:
`for j >= 0 && d[j] > key { d[j+1] = d[j]; j-- }` followed by `d[j+1] = key`.
The counter argument is `j + 1`, so that `0` stands for `j = -1`. -/
def sortInner (key : Int) : Nat → List Int → List Int
  | 0, d => d.set 0 key
  | j + 1, d =>
    if d.getD j 0 > key then sortInner key j (d.set (j + 1) (d.getD j 0))
    else d.set (j + 1) key

/-- One iteration of the outer loop of `sortDurations`: `key := d[i]; j := i - 1; ...`. -/
def sortStep (d : List Int) (i : Nat) : List Int :=
  sortInner (d.getD i 0) i d

/-- Go `sortDurations`: `for i := 1; i < len(d); i++ { ... }`. -/
def sortDurations (d : List Int) : List Int :=
  (List.range' 1 (d.length - 1)).foldl sortStep d

/-- The inner loop of `sortDurations` run one condition check at a time, with Go's signed index
`j`: `for j >= 0 && d[j] > key { d[j+1] = d[j]; j-- }` followed by `d[j+1] = key`. At most `fuel`
checks of the loop condition are made; `none` when that budget ends before the loop exits. -/
def sortInnerLoop (key : Int) : Nat → Int → List Int → Option (List Int)
  | 0, _, _ => none
  | fuel + 1, j, d =>
    if 0 ≤ j ∧ d.getD j.toNat 0 > key then
      sortInnerLoop key fuel (j - 1) (d.set (j + 1).toNat (d.getD j.toNat 0))
    else some (d.set (j + 1).toNat key)

/-- The outer loop of `sortDurations` run one condition check at a time, from index `i`:
`for ; i < len(d); i++ { key := d[i]; j := i - 1; ... }`. At most `fuel` checks of `i < len(d)`
are made and each inner loop gets `inner` checks; `none` when a budget ends before the loop
exits. -/
def sortOuterLoop (inner : Nat) : Nat → Nat → List Int → Option (List Int)
  | 0, _, _ => none
  | fuel + 1, i, d =>
    if i < d.length then
      match sortInnerLoop (d.getD i 0) inner ((i : Int) - 1) d with
      | none => none
      | some d2 => sortOuterLoop inner fuel (i + 1) d2
    else some d

/-- Go `sortDurations` as a loop with an explicit budget of condition checks. -/
def sortDurationsLoop (fuel : Nat) (d : List Int) : Option (List Int) :=
  sortOuterLoop fuel fuel 1 d

/-! ## `sqrt` and `calculateStats` -/

/-- One Newton step of `sqrt`: `z = z - (z*z-x)/(2*z)`. -/
def sqrtStep (x z : ℚ) : ℚ := z - (z * z - x) / (2 * z)

/-- Go `sqrt`: ten Newton steps starting from `x / 2`. -/
def sqrt (x : ℚ) : ℚ :=
  if x ≤ 0 then 0 else (sqrtStep x)^[10] (x / 2)

/-- Go conversion `time.Duration(f)` of a float: the fractional part is discarded. (For a value
outside the `int64` range Go leaves the result to the implementation; here it is the exact
truncation.) -/
def toDuration (f : ℚ) : Int := Int.tdiv f.num f.den

/-- Go `Duration.Seconds`: `float64(d / Second) + float64(d % Second) / 1e9`. -/
def Seconds (d : Int) : ℚ :=
  ((Int.tdiv d Second : Int) : ℚ) + ((Int.tmod d Second : Int) : ℚ) / 1000000000

/-- Loop state of the min/max/mean scan in `calculateStats`. -/
structure Scan where
  sum : Int
  min : Int
  max : Int
  deriving DecidableEq, Repr

/-- Body of `for _, d := range durations { sum += d; if d < min ...; if d > max ... }`. -/
def scanStep (s : Scan) (d : Int) : Scan :=
  { sum := add64 s.sum d
    min := if d < s.min then d else s.min
    max := if d > s.max then d else s.max }

/-- The min/max/sum scan of `calculateStats`, started at `sum = 0`, `min = max = durations[0]`. -/
def scan (durations : List Int) : Scan :=
  durations.foldl scanStep { sum := 0, min := durations.getD 0 0, max := durations.getD 0 0 }

/-- State of the scan loop of `calculateStats` after its first `k` iterations. -/
def scanAfter (durations : List Int) (k : Nat) : Scan :=
  (durations.take k).foldl scanStep
    { sum := 0, min := durations.getD 0 0, max := durations.getD 0 0 }

/-- Body of the variance loop: `diff := float64(d) - meanFloat; variance += diff * diff`. -/
def varStep (meanFloat : ℚ) (variance : ℚ) (d : Int) : ℚ :=
  variance + ((d : ℚ) - meanFloat) * ((d : ℚ) - meanFloat)

/-- The median selection of `calculateStats` on the sorted copy. -/
def medianOf (sorted : List Int) (n : Nat) : Int :=
  if n % 2 = 0 then div64 (add64 (sorted.getD (n / 2 - 1) 0) (sorted.getD (n / 2) 0)) 2
  else sorted.getD (n / 2) 0

/-- The throughput computation of `calculateStats`. -/
def throughputOf (mean inputSize : Int) : ℚ :=
  if mean > 0 ∧ inputSize > 0 then (inputSize : ℚ) / (1024 * 1024) / Seconds mean else 0

/-- Go `calculateStats`; `none` is the nil pointer returned for an empty slice. -/
def calculateStats (awkName program : String) (durations : List Int) (inputSize : Int) :
    Option BenchmarkResult :=
  let n := durations.length
  if n = 0 then none
  else
    let sorted := sortDurations durations
    let s := scan durations
    let mean := div64 s.sum (n : Int)
    let median := medianOf sorted n
    let variance := durations.foldl (varStep (mean : ℚ)) 0 / (n : ℚ)
    let stdDev := toDuration (sqrt variance)
    some
      { AWK := awkName
        Program := program
        Runs := (n : Int)
        Min := s.min
        Max := s.max
        Mean := mean
        Median := median
        StdDev := stdDev
        Throughput := throughputOf mean inputSize }

/-! ## `calculateStats` in binary64

The same function with every `float64` operation rounded to the nearest binary64 value, each
operation on its own (no fused multiply-add), as the amd64 compiler emits it. -/

/-- The position of the leading bit of `n ≥ 1`, that is `⌊log₂ n⌋`, found by halving `n` at
most `fuel` times; `fuel = n` always suffices. -/
def natLog2 : Nat → Nat → Nat
  | 0, _ => 0
  | fuel + 1, n => if n < 2 then 0 else natLog2 fuel (n / 2) + 1

/-- The exponent of the leading bit of a non-zero rational: `2^e ≤ |q| < 2^(e+1)`. It is the
difference of the leading-bit positions of numerator and denominator, or one less. -/
def ilog2 (q : ℚ) : Int :=
  if (2 : ℚ) ^ ((natLog2 q.num.natAbs q.num.natAbs : Int) - (natLog2 q.den q.den : Int)) ≤ |q|
  then (natLog2 q.num.natAbs q.num.natAbs : Int) - (natLog2 q.den q.den : Int)
  else (natLog2 q.num.natAbs q.num.natAbs : Int) - (natLog2 q.den q.den : Int) - 1

/-- Rounding of a rational to the nearest integer, a tie going to the even one. -/
def roundHalfEven (x : ℚ) : Int :=
  if x - (⌊x⌋ : ℚ) < 1 / 2 then ⌊x⌋
  else if 1 / 2 < x - (⌊x⌋ : ℚ) then ⌊x⌋ + 1
  else if ⌊x⌋ % 2 = 0 then ⌊x⌋ else ⌊x⌋ + 1

/-- Rounding of a real result to binary64: the nearest value with a 53-bit significand, a tie
going to the even significand. The exponent range is not bounded (no overflow, no subnormals):
the values `calculateStats` computes from `int64` inputs stay far inside the binary64 range. -/
def round64 (q : ℚ) : ℚ :=
  if q = 0 then 0 else (roundHalfEven (q / 2 ^ (ilog2 q - 52)) : ℚ) * 2 ^ (ilog2 q - 52)

/-- Body of the variance loop in binary64:
`diff := float64(d) - meanFloat; variance += diff * diff`. -/
def varStep64 (meanFloat : ℚ) (variance : ℚ) (d : Int) : ℚ :=
  round64 (variance +
    round64 (round64 (round64 (d : ℚ) - meanFloat) * round64 (round64 (d : ℚ) - meanFloat)))

/-- One Newton step of `sqrt` in binary64: `z = z - (z*z-x)/(2*z)`. -/
def sqrtStep64 (x z : ℚ) : ℚ :=
  round64 (z - round64 (round64 (round64 (z * z) - x) / round64 (2 * z)))

/-- Go `sqrt` in binary64. -/
def sqrt64 (x : ℚ) : ℚ :=
  if x ≤ 0 then 0 else (sqrtStep64 x)^[10] (round64 (x / 2))

/-- Go `Duration.Seconds` in binary64: `float64(d / Second) + float64(d % Second) / 1e9`. -/
def Seconds64 (d : Int) : ℚ :=
  round64 (round64 ((Int.tdiv d Second : Int) : ℚ) +
    round64 (round64 ((Int.tmod d Second : Int) : ℚ) / 1000000000))

/-- The throughput computation of `calculateStats` in binary64. -/
def throughputOf64 (mean inputSize : Int) : ℚ :=
  if mean > 0 ∧ inputSize > 0 then
    round64 (round64 (round64 (inputSize : ℚ) / (1024 * 1024)) / Seconds64 mean)
  else 0

/-- Go conversion `time.Duration(f)` of a `float64` on amd64: the fractional part is discarded,
and a value outside the `int64` range, for which Go leaves the result to the implementation,
gives `-2^63`. -/
def toDuration64 (f : ℚ) : Int :=
  if inInt64 (Int.tdiv f.num f.den) then Int.tdiv f.num f.den else -2 ^ 63

/-- The standard deviation computed by `calculateStats`, in binary64:
`meanFloat := float64(mean)`, the variance loop, `variance /= float64(n)` and
`time.Duration(sqrt(variance))`. -/
def stdDev64 (durations : List Int) (mean : Int) : Int :=
  toDuration64 (sqrt64 (round64
    (durations.foldl (varStep64 (round64 (mean : ℚ))) 0 / round64 (durations.length : ℚ))))

/-- Go `calculateStats` with its `float64` operations in binary64; the integer part is that of
`calculateStats`. -/
def calculateStats64 (awkName program : String) (durations : List Int) (inputSize : Int) :
    Option BenchmarkResult :=
  let n := durations.length
  if n = 0 then none
  else
    let sorted := sortDurations durations
    let s := scan durations
    let mean := div64 s.sum (n : Int)
    some
      { AWK := awkName
        Program := program
        Runs := (n : Int)
        Min := s.min
        Max := s.max
        Mean := mean
        Median := medianOf sorted n
        StdDev := stdDev64 durations mean
        Throughput := throughputOf64 mean inputSize }

/-! ## `Runner.Benchmark` -/

/-- What a call of `Benchmark` does: panic, or return a `(*BenchmarkResult, error)` pair. -/
inductive Ret where
  | panic : Ret
  | ret (result : Option BenchmarkResult) (err : Option String) : Ret
  deriving DecidableEq, Repr

/-- The warmup loop of `Benchmark`, with `k` iterations left and `calls` calls of `Run` made so
far. Returns the number of calls made and the error of a failing run, if any. -/
def warmupLoop (run : Nat → Result) : Nat → Nat → Nat × Option String
  | 0, calls => (calls, none)
  | k + 1, calls =>
    match (run calls).Error with
    | some e => (calls + 1, some e)
    | none => warmupLoop run k (calls + 1)

/-- The measured loop of `Benchmark`, with `k` iterations left, loop index `i`, `calls` calls of
`Run` made so far and the slice `durations`. Returns the number of calls made and either the
error of a failing run or the filled slice. -/
def measuredLoop (run : Nat → Result) : Nat → Nat → Nat → List Int → Nat × Except String (List Int)
  | 0, _, calls, durations => (calls, .ok durations)
  | k + 1, i, calls, durations =>
    match (run calls).Error with
    | some e => (calls + 1, .error e)
    | none => measuredLoop run k (i + 1) (calls + 1) (durations.set i (run calls).Duration)

/-- Go `Runner.Benchmark`. The result is the number of calls of `Run` made and what is returned.
`make([]time.Duration, r.Runs)` panics for a negative `r.Runs`. -/
def Benchmark (r : Runner) (run : Nat → Result) (awk : AWK) (programFile : String)
    (inputSize : Int) : Nat × Ret :=
  match warmupLoop run r.Warmup.toNat 0 with
  | (c, some e) => (c, .ret none (some e))
  | (c, none) =>
    if r.Runs < 0 then (c, .panic)
    else
      match measuredLoop run r.Runs.toNat 0 c (List.replicate r.Runs.toNat 0) with
      | (c2, .error e) => (c2, .ret none (some e))
      | (c2, .ok durations) =>
        (c2, .ret (calculateStats awk.Name programFile durations inputSize) none)

/-- The runner `run()` in `cmd/awkbench/main.go` builds from the `-runs` and `-warmup` flags:
`r := runner.NewRunner(); r.Runs = *runs; r.Warmup = *warmup`. -/
def driverRunner (runs warmup : Int) : Runner :=
  { NewRunner with Runs := runs, Warmup := warmup }

/-! ## `FindAvailable` -/

/-- The host as `FindAvailable` probes it. `LookPath c` is `some path` when `exec.LookPath(c)`
returns `path` with a nil error, `Stat p` is true when `os.Stat(p)` returns a nil error,
`Getenv` is `os.Getenv` and `Join` is `filepath.Join`. -/
structure Host where
  LookPath : String → Option String
  Stat : String → Bool
  Getenv : String → String
  Join : List String → String

/-- The step `if _, err := os.Stat(goBin); err == nil { awk.Command = goBin; ... }`: the path
when it exists. -/
def statPath (host : Host) (goBin : String) : Option String :=
  if host.Stat goBin then some goBin else none

/-- The resolution cascade in the loop body of `FindAvailable`, for one command: the value
assigned to `awk.Command` before `available = append(available, awk); continue`, or `none` when
the end of the body is reached without appending. -/
def resolve (host : Host) (command : String) : Option String :=
  (host.LookPath command).orElse fun _ =>
  (host.LookPath (command ++ ".exe")).orElse fun _ =>
  (if host.Getenv "GOPATH" ≠ "" then
    (statPath host (host.Join [host.Getenv "GOPATH", "bin", command])).orElse fun _ =>
      statPath host (host.Join [host.Getenv "GOPATH", "bin", command ++ ".exe"])
   else none).orElse fun _ =>
  (if host.Getenv "HOME" ≠ "" then
    (statPath host (host.Join [host.Getenv "HOME", "go", "bin", command])).orElse fun _ =>
      statPath host (host.Join [host.Getenv "HOME", "go", "bin", command ++ ".exe"])
   else none).orElse fun _ =>
  if host.Getenv "USERPROFILE" ≠ "" then
    statPath host (host.Join [host.Getenv "USERPROFILE", "go", "bin", command ++ ".exe"])
  else none

/-- One iteration of `for _, awk := range awks` in `FindAvailable`, on the copy `awk`. -/
def findStep (host : Host) (available : List AWK) (awk : AWK) : List AWK :=
  match resolve host awk.Command with
  | some path => available ++ [{ awk with Command := path }]
  | none => available

/-- Go `FindAvailable`. -/
def FindAvailable (host : Host) (awks : List AWK) : List AWK :=
  awks.foldl (findStep host) []

/-- Go `DefaultAWKs`. -/
def DefaultAWKs : List AWK :=
  [ { Name := "uawk", Command := "uawk", Args := [] },
    { Name := "uawk-fast", Command := "uawk", Args := ["--no-posix"] },
    { Name := "goawk", Command := "goawk", Args := [] },
    { Name := "gawk", Command := "gawk", Args := ["-b"] },
    { Name := "mawk", Command := "mawk", Args := [] } ]

/-! ## Slices, `append` and the argument lists of `Run` and `RunInline` -/

/-- A Go slice of strings: the window `[off, off + len)`, extensible up to `off + cap`, of the
backing array number `arr` of the heap. -/
structure Slice where
  arr : Nat
  off : Nat
  len : Nat
  cap : Nat
  deriving DecidableEq, Repr

/-- The backing arrays allocated so far, in order of allocation. -/
abbrev Heap := List (List String)

/-- The elements of the slice `s` in the heap `h`. -/
def elems (h : Heap) (s : Slice) : List String :=
  ((h.getD s.arr []).drop s.off).take s.len

/-- The slice lies inside an allocated backing array, capacity included. -/
def ValidSlice (h : Heap) (s : Slice) : Prop :=
  s.arr < h.length ∧ s.len ≤ s.cap ∧ s.off + s.cap ≤ (h.getD s.arr []).length

/-- Store `xs` into the cells `i`, `i + 1`, ... of the array `a`. -/
def writeAt (a : List String) (i : Nat) : List String → List String
  | [] => a
  | x :: xs => writeAt (a.set i x) (i + 1) xs

/-- Go `[]string{}`: an empty slice of capacity `0` over a backing array of its own. -/
def emptySlice (h : Heap) : Heap × Slice :=
  (h ++ [[]], { arr := h.length, off := 0, len := 0, cap := 0 })

/-- Go `append(s, xs...)`. When the capacity of `s` suffices the values are stored in the
backing array of `s` behind its last element; otherwise a new backing array is allocated, of a
capacity `max n (grow n)` chosen by the runtime (`grow` is its growth policy), holding the
elements of `s` followed by `xs`. Returns the heap afterwards and the resulting slice. -/
def sliceAppend (grow : Nat → Nat) (h : Heap) (s : Slice) (xs : List String) : Heap × Slice :=
  if s.len + xs.length ≤ s.cap then
    (h.set s.arr (writeAt (h.getD s.arr []) (s.off + s.len) xs),
      { s with len := s.len + xs.length })
  else
    (h ++ [elems h s ++ xs ++
        List.replicate (max (s.len + xs.length) (grow (s.len + xs.length)) - (s.len + xs.length)) ""],
      { arr := h.length, off := 0, len := s.len + xs.length,
        cap := max (s.len + xs.length) (grow (s.len + xs.length)) })

/-- The argument list `Run` builds and passes to `exec.CommandContext`:
`args := append([]string{}, awk.Args...); args = append(args, "-f", programFile, inputFile)`,
with `awkArgs` the slice `awk.Args`. Returns the heap afterwards and the slice `args`. -/
def runArgs (grow : Nat → Nat) (h : Heap) (awkArgs : Slice) (programFile inputFile : String) :
    Heap × Slice :=
  let e := emptySlice h
  let a := sliceAppend grow e.1 e.2 (elems e.1 awkArgs)
  sliceAppend grow a.1 a.2 ["-f", programFile, inputFile]

/-- The argument list `RunInline` builds and passes to `exec.CommandContext`:
`args := append([]string{}, awk.Args...); args = append(args, program, inputFile)`. -/
def runInlineArgs (grow : Nat → Nat) (h : Heap) (awkArgs : Slice) (program inputFile : String) :
    Heap × Slice :=
  let e := emptySlice h
  let a := sliceAppend grow e.1 e.2 (elems e.1 awkArgs)
  sliceAppend grow a.1 a.2 [program, inputFile]

/-! ## `report.WriteSummary` -/

/-- A `float64` value where it may fail to be finite: a finite value (an exact rational, rounding
is not modelled), an infinity of either sign, or not a number. -/
inductive Float64 where
  | fin (q : ℚ) : Float64
  | inf : Float64
  | nan : Float64
  deriving DecidableEq, Repr

/-- Go `math.MaxFloat64`, the largest finite `float64`: `(2^53 - 1) * 2^971`. -/
def MaxFloat64 : ℚ := (2 ^ 53 - 1) * 2 ^ 971

/-- Go `p * d` on `float64`, for a finite `d`: a product beyond `MaxFloat64` in magnitude
overflows to an infinity. -/
def fmul (p : Float64) (d : ℚ) : Float64 :=
  match p with
  | .fin q => if MaxFloat64 < |q * d| then .inf else .fin (q * d)
  | .inf => if d = 0 then .nan else .inf
  | .nan => .nan

/-- Go `a / b` on `float64` (a finite quotient of finite operands is taken exactly). -/
def fdiv : Float64 → Float64 → Float64
  | .fin a, .fin b => if b ≠ 0 then .fin (a / b) else if a = 0 then .nan else .inf
  | .fin _, .inf => .fin 0
  | .inf, .fin _ => .inf
  | .inf, .inf => .nan
  | .nan, _ => .nan
  | _, .nan => .nan

/-- The value of a finite `float64`, and `0` for an infinity or not a number. -/
def finValue : Float64 → ℚ
  | .fin q => q
  | _ => 0

/-- Go `type awkScore struct`, declared inside `WriteSummary`. -/
structure awkScore where
  name : String
  score : Float64
  deriving DecidableEq, Repr

/-- The Go runtime and library as `WriteSummary` uses them. `pow` is `math.Pow` (with a finite
exponent); `rangeMap` gives the order in which `for awk, durations := range byAWK` enumerates
the entries of the map; `sortSlice` is what `sort.Slice(scores, func(i, j int) bool { return
scores[i].score < scores[j].score })` leaves in the slice. -/
structure GoLib where
  pow : Float64 → ℚ → Float64
  rangeMap : List (String × List Int) → List (String × List Int)
  sortSlice : List awkScore → List awkScore

/-- What the language and the library promise about those operations: a positive finite base
has a positive finite power, `range` enumerates every entry of the map exactly once, and
`sort.Slice` leaves a rearrangement of the slice in which, when all scores are finite, no
element is less than an earlier one. -/
def Lawful (lib : GoLib) : Prop :=
  (∀ x y : ℚ, 0 < x → ∃ r : ℚ, 0 < r ∧ lib.pow (.fin x) y = .fin r) ∧
    (∀ m, (lib.rangeMap m).Perm m) ∧
    (∀ l, (lib.sortSlice l).Perm l) ∧
    ∀ l, (∀ s ∈ l, ∃ q, s.score = Float64.fin q) →
      (lib.sortSlice l).Sorted fun a b => finValue a.score ≤ finValue b.score

/-- The map update `byAWK[k] = append(byAWK[k], v)`; the map is the list of its entries, in
order of first insertion. -/
def groupInsert : List (String × List Int) → String → Int → List (String × List Int)
  | [], k, v => [(k, [v])]
  | (k2, vs) :: m, k, v =>
    if k2 = k then (k2, vs ++ [v]) :: m else (k2, vs) :: groupInsert m k v

/-- The grouping loop of `WriteSummary`:
`for _, r := range results { byAWK[r.AWK] = append(byAWK[r.AWK], r.Mean) }`. -/
def groupByAWK (results : List BenchmarkResult) : List (String × List Int) :=
  results.foldl (fun m r => groupInsert m r.AWK r.Mean) []

/-- The loop `product := 1.0; for _, d := range durations { product *= float64(d.Nanoseconds()) }`. -/
def product (durations : List Int) : Float64 :=
  durations.foldl (fun (p : Float64) (d : Int) => fmul p (d : ℚ)) (.fin 1)

/-- The body of the loop over `byAWK`:
`awkScore{awk, pow(product, 1.0/float64(len(durations)))}`. -/
def geoScore (lib : GoLib) (entry : String × List Int) : awkScore :=
  { name := entry.1, score := lib.pow (product entry.2) (1 / (entry.2.length : ℚ)) }

/-- Go conversion `int(f)` of a finite float: the fractional part is discarded. -/
def toInt (f : ℚ) : Int := Int.tdiv f.num f.den

/-- The repeat count `int(10/ratio)` of the bar. `none` when the value converted is an infinity
or not a number: Go leaves the result of that conversion to the implementation. -/
def barCount : Float64 → Option Int
  | .fin r => if r = 0 then none else some (toInt (10 / r))
  | .inf => some 0
  | .nan => none

/-- One row of the summary table: the values formatted by
`fmt.Fprintf(w, "| %d | %s | %.2fx %s |\n", i+1, s.name, ratio, bar)`, the bar given by its
length. -/
structure SummaryRow where
  rank : Int
  name : String
  ratio : Float64
  bar : Int
  deriving DecidableEq, Repr

/-- How the row loop of `WriteSummary` ends: normally, with the panic of `strings.Repeat` on a
negative count, or at a conversion whose result Go does not specify. -/
inductive Exit where
  | ok : Exit
  | panic : Exit
  | unspecified : Exit
  deriving DecidableEq, Repr

/-- The row loop `for i, s := range scores { ratio := s.score / baseline; bar := ...; ... }` from
index `i` on: the rows written and how the loop ends. -/
def emitRows (baseline : Float64) : Nat → List awkScore → List SummaryRow × Exit
  | _, [] => ([], .ok)
  | i, s :: rest =>
    match barCount (fdiv s.score baseline) with
    | none => ([], .unspecified)
    | some count =>
      if count < 0 then ([], .panic)
      else
        ({ rank := (i : Int) + 1, name := s.name, ratio := fdiv s.score baseline, bar := count }
            :: (emitRows baseline (i + 1) rest).1,
          (emitRows baseline (i + 1) rest).2)

/-- Go `WriteSummary`: the rows of the ranking table it writes, in order, and how the call ends
(`scores[0]` panics on an empty slice). The title and the table header are not part of the
result. -/
def WriteSummary (lib : GoLib) (results : List BenchmarkResult) : List SummaryRow × Exit :=
  if results.length = 0 then ([], .ok)
  else
    match lib.sortSlice ((lib.rangeMap (groupByAWK results)).map (geoScore lib)) with
    | [] => ([], .panic)
    | s0 :: rest => emitRows s0.score 0 (s0 :: rest)

/-! ## Sample oracles for `Run` -/

/-- An oracle for `Run` in which every call succeeds; call `k` takes `100ms + k` ns. -/
def steadyRun (k : Nat) : Result :=
  { AWK := "uawk", Program := "sum.awk", Duration := 100000000 + k, Output := "42", Error := none }

/-- An oracle for `Run` in which call number `3` (the fourth call) fails and every other call
succeeds. -/
def flakyRun (k : Nat) : Result :=
  if k = 3 then
    { AWK := "uawk", Program := "sum.awk", Duration := 5000000, Output := "",
      Error := some "exit status 2: syntax error" }
  else steadyRun k

/-- A sample host: `gawk` is on the search path, `goawk.exe` is installed under `$HOME/go/bin`,
`GOPATH` and `USERPROFILE` are unset, and nothing else exists. -/
def sampleHost : Host :=
  { LookPath := fun c => if c = "gawk" then some "/usr/bin/gawk" else none
    Stat := fun p => p == "/home/u/go/bin/goawk.exe"
    Getenv := fun k => if k = "HOME" then "/home/u" else ""
    Join := fun parts => "/".intercalate parts }

/-- A stand-in for `math.Pow` that is exact where the library is: `math.Pow(x, 1) = x`, the
only exponent met when a candidate has one program, and the power of an infinity (with a positive
exponent) or of not a number is the base itself. On a finite base with another exponent it
returns `1`. -/
def samplePow (x : Float64) (y : ℚ) : Float64 :=
  match x with
  | .fin q => if y = 1 then .fin q else .fin 1
  | .inf => .inf
  | .nan => .nan

/-- The key the sample library sorts by: the value of a finite score; infinities and not a
number are placed last. -/
def sortKey : Float64 → ℚ
  | .fin q => q
  | .inf => MaxFloat64 + 1
  | .nan => MaxFloat64 + 2

/-- A sample library: the map is enumerated in order of first insertion and the slice is sorted
by a stable insertion sort. -/
def sampleLib : GoLib :=
  { pow := samplePow
    rangeMap := fun m => m
    sortSlice := fun l => l.insertionSort fun a b => sortKey a.score ≤ sortKey b.score }

/-- The sample library with the map enumerated in the opposite order. -/
def reversedLib : GoLib :=
  { sampleLib with rangeMap := fun m => m.reverse }

/-- A result record for candidate `awk` on `program` with all durations equal to `mean`. -/
def sampleResult (awk program : String) (mean : Int) : BenchmarkResult :=
  { AWK := awk, Program := program, Runs := 5, Min := mean, Max := mean, Mean := mean,
    Median := mean, StdDev := 0, Throughput := 0 }

/-- A candidate benchmarked on 35 programs, each with a mean of one second. -/
def longSuite : List BenchmarkResult :=
  (List.range 35).map fun k => sampleResult "gawk" ("p" ++ toString k ++ ".awk") 1000000000

/-! ## Reference notions the statements below compare the code with -/

/-- Population variance around `mean`: the sum over the samples of `(d - mean)^2`, divided by
the number of samples. -/
def popVariance (durations : List Int) (mean : Int) : ℚ :=
  (durations.map fun d : Int => ((d : ℚ) - (mean : ℚ)) ^ 2).sum / (durations.length : ℚ)

/-- The duration `sd` is the square root of the population variance around `mean`, cut to whole
nanoseconds. -/
def IsPopulationStdDev (durations : List Int) (mean sd : Int) : Prop :=
  0 ≤ sd ∧ (sd : ℚ) ^ 2 ≤ popVariance durations mean ∧
    popVariance durations mean < ((sd : ℚ) + 1) ^ 2

/-- Reference median of an ascending arrangement `sorted` of the samples, in exact integer
arithmetic: the element at index `n / 2` when the count `n` is odd, and the arithmetic mean of
the elements at indices `n / 2 - 1` and `n / 2`, with the fraction discarded, when it is even. -/
def medianRef (sorted : List Int) : Int :=
  if sorted.length % 2 = 1 then sorted.getD (sorted.length / 2) 0
  else Int.tdiv (sorted.getD (sorted.length / 2 - 1) 0 + sorted.getD (sorted.length / 2) 0) 2

/-! ## Machine integer lemmas -/

theorem wrap64_of_inInt64 {x : Int} (h : inInt64 x) : wrap64 x = x := by
  unfold inInt64 at h
  unfold wrap64
  omega

theorem inInt64_wrap64 (x : Int) : inInt64 (wrap64 x) := by
  unfold inInt64 wrap64
  omega

theorem wrap64_add_wrap64 (a b : Int) : wrap64 (wrap64 a + b) = wrap64 (a + b) := by
  unfold wrap64
  omega

/-! ## Correctness of `sortDurations` -/

theorem sortInner_spec (key : Int) :
    ∀ (j : Nat) (pre : List Int) (x : Int) (suf : List Int), pre.length = j →
      pre.Sorted (· ≤ ·) →
      ∃ l, sortInner key j (pre ++ x :: suf) = l ++ suf ∧ l.Perm (key :: pre) ∧
        l.Sorted (· ≤ ·) := by
  intro j
  induction j with
  | zero =>
    intro pre x suf hlen _
    have hpre : pre = [] := List.length_eq_zero.mp hlen
    subst hpre
    exact ⟨[key], by simp [sortInner], List.Perm.refl _, List.sorted_singleton _⟩
  | succ j ih =>
    intro pre x suf hlen hs
    obtain ⟨pre1, a, rfl⟩ : ∃ pre1 a, pre = pre1 ++ [a] := by
      have hne : pre ≠ [] := by
        intro h
        simp [h] at hlen
      exact ⟨pre.dropLast, pre.getLast hne, (List.dropLast_append_getLast hne).symm⟩
    have hlen1 : pre1.length = j := by simpa using hlen
    have hget : (pre1 ++ [a] ++ x :: suf).getD j 0 = a := by
      rw [List.getD_eq_getElem?_getD, List.append_assoc,
        List.getElem?_append_right (by omega)]
      simp [hlen1]
    have hs1 : pre1.Sorted (· ≤ ·) := (List.pairwise_append.mp hs).1
    have hle : ∀ b ∈ pre1, b ≤ a := fun b hb =>
      (List.pairwise_append.mp hs).2.2 b hb a (by simp)
    unfold sortInner
    rw [hget]
    by_cases hgt : a > key
    · rw [if_pos hgt]
      have hset : (pre1 ++ [a] ++ x :: suf).set (j + 1) a = pre1 ++ a :: (a :: suf) := by
        rw [List.append_assoc, List.set_append_right _ _ (by omega)]
        simp [hlen1]
      rw [hset]
      obtain ⟨l, hl, hp, hsl⟩ := ih pre1 a (a :: suf) hlen1 hs1
      refine ⟨l ++ [a], by simp [hl], ?_, ?_⟩
      · exact hp.append_right [a]
      · refine List.pairwise_append.mpr ⟨hsl, List.sorted_singleton _, ?_⟩
        intro b hb c hc
        have hc1 : c = a := by simpa using hc
        subst hc1
        rcases List.mem_cons.mp (hp.subset hb) with h | h
        · omega
        · exact hle b h
    · rw [if_neg hgt]
      refine ⟨pre1 ++ [a] ++ [key], ?_, ?_, ?_⟩
      · rw [List.append_assoc pre1, List.set_append_right _ _ (by omega)]
        simp [hlen1]
      · exact (List.perm_append_comm).trans (List.Perm.refl _)
      · refine List.pairwise_append.mpr ⟨hs, List.sorted_singleton _, ?_⟩
        intro b hb c hc
        have hc1 : c = key := by simpa using hc
        subst hc1
        rcases List.mem_append.mp hb with h | h
        · have := hle b h
          omega
        · have hb1 : b = a := by simpa using h
          omega

theorem sortLoop_spec :
    ∀ (m k : Nat) (l rest : List Int), l.length = k → rest.length = m →
      l.Sorted (· ≤ ·) →
      ((List.range' k m).foldl sortStep (l ++ rest)).Perm (l ++ rest) ∧
        ((List.range' k m).foldl sortStep (l ++ rest)).Sorted (· ≤ ·) := by
  intro m
  induction m with
  | zero =>
    intro k l rest _ hrest hs
    have hr : rest = [] := List.length_eq_zero.mp hrest
    subst hr
    simpa using hs
  | succ m ih =>
    intro k l rest hlen hrest hs
    obtain ⟨x, rest1, rfl⟩ : ∃ x rest1, rest = x :: rest1 := by
      cases rest with
      | nil => simp at hrest
      | cons x rest1 => exact ⟨x, rest1, rfl⟩
    have hget : (l ++ x :: rest1).getD k 0 = x := by
      rw [List.getD_eq_getElem?_getD, List.getElem?_append_right (by omega)]
      simp [hlen]
    obtain ⟨l2, hl2, hp2, hs2⟩ := sortInner_spec x k l x rest1 hlen hs
    have hstep : sortStep (l ++ x :: rest1) k = l2 ++ rest1 := by
      unfold sortStep
      rw [hget, hl2]
    have hlen2 : l2.length = k + 1 := by
      rw [hp2.length_eq]
      simp [hlen]
    have hrest1 : rest1.length = m := by simpa using hrest
    obtain ⟨hp, hsorted⟩ := ih (k + 1) l2 rest1 hlen2 hrest1 hs2
    rw [List.range'_succ, List.foldl_cons, hstep]
    refine ⟨hp.trans ?_, hsorted⟩
    exact (hp2.append_right rest1).trans (List.perm_middle.symm)

theorem sortDurations_spec (d : List Int) :
    (sortDurations d).Perm d ∧ (sortDurations d).Sorted (· ≤ ·) := by
  cases d with
  | nil => simp [sortDurations]
  | cons a t =>
    have h := sortLoop_spec t.length 1 [a] t rfl rfl (List.sorted_singleton a)
    simpa [sortDurations] using h

theorem sortDurations_perm (d : List Int) : (sortDurations d).Perm d :=
  (sortDurations_spec d).1

theorem sortDurations_sorted (d : List Int) : (sortDurations d).Sorted (· ≤ ·) :=
  (sortDurations_spec d).2

theorem sortDurations_length (d : List Int) : (sortDurations d).length = d.length :=
  (sortDurations_perm d).length_eq

/-- Every ascending arrangement of the samples is the one `sortDurations` computes. -/
theorem sortDurations_eq_of_sorted {d s : List Int} (hp : s.Perm d) (hs : s.Sorted (· ≤ ·)) :
    sortDurations d = s :=
  List.eq_of_perm_of_sorted ((sortDurations_perm d).trans hp.symm) (sortDurations_sorted d) hs

theorem sortDurations_congr {d e : List Int} (hp : d.Perm e) :
    sortDurations d = sortDurations e :=
  sortDurations_eq_of_sorted ((sortDurations_perm e).trans hp.symm) (sortDurations_sorted e)

/-! ## The min/max/sum scan -/

theorem foldl_scanStep_sum (ds : List Int) :
    ∀ s : Scan, inInt64 s.sum → (ds.foldl scanStep s).sum = wrap64 (s.sum + ds.sum) := by
  induction ds with
  | nil =>
    intro s hs
    simp [wrap64_of_inInt64 hs]
  | cons d t ih =>
    intro s _
    rw [List.foldl_cons, ih (scanStep s d) (inInt64_wrap64 _)]
    simp only [scanStep, add64, List.sum_cons]
    rw [wrap64_add_wrap64, add_assoc]

theorem foldl_scanStep_min (ds : List Int) :
    ∀ s : Scan, (ds.foldl scanStep s).min ≤ s.min ∧ (∀ d ∈ ds, (ds.foldl scanStep s).min ≤ d) ∧
      ((ds.foldl scanStep s).min = s.min ∨ (ds.foldl scanStep s).min ∈ ds) := by
  induction ds with
  | nil =>
    intro s
    simp
  | cons d t ih =>
    intro s
    obtain ⟨h1, h2, h3⟩ := ih (scanStep s d)
    rw [List.foldl_cons]
    have hstep : (scanStep s d).min ≤ s.min ∧ (scanStep s d).min ≤ d ∧
        ((scanStep s d).min = s.min ∨ (scanStep s d).min = d) := by
      simp only [scanStep]
      split_ifs <;> omega
    refine ⟨by omega, ?_, ?_⟩
    · intro e he
      rcases List.mem_cons.mp he with rfl | he
      · omega
      · exact h2 e he
    · rcases h3 with h3 | h3
      · rcases hstep.2.2 with h | h
        · exact Or.inl (h3.trans h)
        · exact Or.inr (List.mem_cons.mpr (Or.inl (h3.trans h)))
      · exact Or.inr (List.mem_cons_of_mem _ h3)

theorem foldl_scanStep_max (ds : List Int) :
    ∀ s : Scan, s.max ≤ (ds.foldl scanStep s).max ∧ (∀ d ∈ ds, d ≤ (ds.foldl scanStep s).max) ∧
      ((ds.foldl scanStep s).max = s.max ∨ (ds.foldl scanStep s).max ∈ ds) := by
  induction ds with
  | nil =>
    intro s
    simp
  | cons d t ih =>
    intro s
    obtain ⟨h1, h2, h3⟩ := ih (scanStep s d)
    rw [List.foldl_cons]
    have hstep : s.max ≤ (scanStep s d).max ∧ d ≤ (scanStep s d).max ∧
        ((scanStep s d).max = s.max ∨ (scanStep s d).max = d) := by
      simp only [scanStep]
      split_ifs <;> omega
    refine ⟨by omega, ?_, ?_⟩
    · intro e he
      rcases List.mem_cons.mp he with rfl | he
      · omega
      · exact h2 e he
    · rcases h3 with h3 | h3
      · rcases hstep.2.2 with h | h
        · exact Or.inl (h3.trans h)
        · exact Or.inr (List.mem_cons.mpr (Or.inl (h3.trans h)))
      · exact Or.inr (List.mem_cons_of_mem _ h3)

theorem scan_sum (ds : List Int) : (scan ds).sum = wrap64 ds.sum := by
  unfold scan
  have h0 : inInt64 (0 : Int) := by decide
  rw [foldl_scanStep_sum ds _ h0]
  simp

theorem scan_min_le {ds : List Int} {d : Int} (hd : d ∈ ds) : (scan ds).min ≤ d :=
  (foldl_scanStep_min ds _).2.1 d hd

theorem scan_le_max {ds : List Int} {d : Int} (hd : d ∈ ds) : d ≤ (scan ds).max :=
  (foldl_scanStep_max ds _).2.1 d hd

theorem scan_min_mem {ds : List Int} (h : ds ≠ []) : (scan ds).min ∈ ds := by
  cases ds with
  | nil => exact absurd rfl h
  | cons a t =>
    rcases (foldl_scanStep_min (a :: t)
      { sum := 0, min := (a :: t).getD 0 0, max := (a :: t).getD 0 0 }).2.2 with h1 | h1
    · have h2 : (scan (a :: t)).min = a := by simpa [scan] using h1
      rw [h2]
      exact List.mem_cons_self _ _
    · exact h1

theorem scan_max_mem {ds : List Int} (h : ds ≠ []) : (scan ds).max ∈ ds := by
  cases ds with
  | nil => exact absurd rfl h
  | cons a t =>
    rcases (foldl_scanStep_max (a :: t)
      { sum := 0, min := (a :: t).getD 0 0, max := (a :: t).getD 0 0 }).2.2 with h1 | h1
    · have h2 : (scan (a :: t)).max = a := by simpa [scan] using h1
      rw [h2]
      exact List.mem_cons_self _ _
    · exact h1

theorem scan_congr {d e : List Int} (hp : d.Perm e) : scan d = scan e := by
  by_cases hd : d = []
  · subst hd
    rw [List.Perm.nil_eq hp]
  · have he : e ≠ [] := fun h => hd (by subst h; exact List.Perm.eq_nil hp)
    have hsum : (scan d).sum = (scan e).sum := by rw [scan_sum, scan_sum, hp.sum_eq]
    have hmin : (scan d).min = (scan e).min :=
      le_antisymm (scan_min_le (hp.symm.subset (scan_min_mem he)))
        (scan_min_le (hp.subset (scan_min_mem hd)))
    have hmax : (scan d).max = (scan e).max :=
      le_antisymm (scan_le_max (hp.subset (scan_max_mem hd)))
        (scan_le_max (hp.symm.subset (scan_max_mem he)))
    cases hsd : scan d
    cases hse : scan e
    simp_all

/-! ## Truncating division -/

theorem tdiv_bounds {S n lo hi : Int} (hn : 0 < n) (hlo : n * lo ≤ S) (hhi : S ≤ n * hi) :
    lo ≤ S.tdiv n ∧ S.tdiv n ≤ hi := by
  rcases le_total 0 S with hS | hS
  · rw [Int.tdiv_eq_ediv hS hn.le]
    have h1 := Int.ediv_mul_le S (ne_of_gt hn)
    have h2 := Int.lt_ediv_add_one_mul_self S hn
    constructor
    · by_contra h
      have h3 : S / n + 1 ≤ lo := by omega
      nlinarith [mul_le_mul_of_nonneg_right h3 hn.le]
    · by_contra h
      have h3 : hi + 1 ≤ S / n := by omega
      nlinarith [mul_le_mul_of_nonneg_right h3 hn.le]
  · have hT : 0 ≤ -S := by omega
    have hrw : S.tdiv n = -((-S) / n) := by
      rw [← Int.tdiv_eq_ediv hT hn.le, Int.neg_tdiv, neg_neg]
    rw [hrw]
    have h1 := Int.ediv_mul_le (-S) (ne_of_gt hn)
    have h2 := Int.lt_ediv_add_one_mul_self (-S) hn
    constructor
    · by_contra h
      have h3 : -lo + 1 ≤ -S / n := by omega
      nlinarith [mul_le_mul_of_nonneg_right h3 hn.le]
    · by_contra h
      have h3 : -S / n + 1 ≤ -hi := by omega
      nlinarith [mul_le_mul_of_nonneg_right h3 hn.le]

theorem inInt64_tdiv {S n : Int} (hn : 0 < n) (hS : inInt64 S) : inInt64 (S.tdiv n) := by
  unfold inInt64 at *
  have h := @tdiv_bounds S n (-2 ^ 63) (2 ^ 63 - 1) hn (by nlinarith) (by nlinarith)
  omega

theorem div64_eq_tdiv {S n : Int} (hn : 0 < n) (hS : inInt64 S) : div64 S n = S.tdiv n :=
  wrap64_of_inInt64 (inInt64_tdiv hn hS)

theorem length_mul_le_sum (l : List Int) (lo : Int) (h : ∀ x ∈ l, lo ≤ x) :
    (l.length : Int) * lo ≤ l.sum := by
  have := List.card_nsmul_le_sum l lo h
  simpa [nsmul_eq_mul] using this

theorem sum_le_length_mul (l : List Int) (hi : Int) (h : ∀ x ∈ l, x ≤ hi) :
    l.sum ≤ (l.length : Int) * hi := by
  have := List.sum_le_card_nsmul l hi h
  simpa [nsmul_eq_mul] using this

/-! ## `calculateStats` field by field -/

theorem calculateStats_eq (awkName program : String) {durations : List Int}
    (h : durations ≠ []) (inputSize : Int) :
    calculateStats awkName program durations inputSize =
      some
        { AWK := awkName
          Program := program
          Runs := (durations.length : Int)
          Min := (scan durations).min
          Max := (scan durations).max
          Mean := div64 (scan durations).sum (durations.length : Int)
          Median := medianOf (sortDurations durations) durations.length
          StdDev := toDuration (sqrt (durations.foldl
            (varStep ((div64 (scan durations).sum (durations.length : Int) : Int) : ℚ)) 0
              / (durations.length : ℚ)))
          Throughput :=
            throughputOf (div64 (scan durations).sum (durations.length : Int)) inputSize } := by
  have hn : durations.length ≠ 0 := fun h0 => h (List.length_eq_zero.mp h0)
  simp [calculateStats, hn]

theorem calculateStats_nil (awkName program : String) (inputSize : Int) :
    calculateStats awkName program [] inputSize = none := by
  simp [calculateStats]

theorem mean_eq_tdiv {ds : List Int} (h : ds ≠ []) (hsum : inInt64 ds.sum) :
    div64 (scan ds).sum (ds.length : Int) = ds.sum.tdiv (ds.length : Int) := by
  have hn : (0 : Int) < ds.length := by
    have := List.length_pos.mpr h
    omega
  rw [scan_sum, wrap64_of_inInt64 hsum, div64_eq_tdiv hn hsum]

theorem mean_bounds {ds : List Int} (h : ds ≠ []) (hsum : inInt64 ds.sum) :
    (scan ds).min ≤ div64 (scan ds).sum (ds.length : Int) ∧
      div64 (scan ds).sum (ds.length : Int) ≤ (scan ds).max := by
  have hn : (0 : Int) < ds.length := by
    have := List.length_pos.mpr h
    omega
  rw [mean_eq_tdiv h hsum]
  exact tdiv_bounds hn (length_mul_le_sum ds _ fun x hx => scan_min_le hx)
    (sum_le_length_mul ds _ fun x hx => scan_le_max hx)

/-! ## The median -/

theorem tdiv_two_bounds (w : Int) :
    (0 ≤ w → 2 * w.tdiv 2 ≤ w ∧ w ≤ 2 * w.tdiv 2 + 1) ∧
      (w < 0 → w ≤ 2 * w.tdiv 2 ∧ 2 * w.tdiv 2 ≤ w + 1) := by
  constructor
  · intro hw
    rw [Int.tdiv_eq_ediv hw (by norm_num)]
    omega
  · intro hw
    have hrw : w.tdiv 2 = -((-w) / 2) := by
      rw [← Int.tdiv_eq_ediv (by omega) (by norm_num), Int.neg_tdiv, neg_neg]
    rw [hrw]
    omega

theorem wrap64_cases (x : Int) :
    (inInt64 x → wrap64 x = x) ∧
      (2 ^ 63 ≤ x → x < 2 ^ 64 → wrap64 x = x - 2 ^ 64) ∧
      (x < -2 ^ 63 → -2 ^ 64 ≤ x → wrap64 x = x + 2 ^ 64) := by
  unfold inInt64 wrap64
  refine ⟨?_, ?_, ?_⟩ <;> intros <;> omega

/-- The arithmetic core of the median bound for an even number of samples: `b ≤ c` are the two
middle samples, `L` and `U` the sums of the `k` samples below and above them. -/
theorem median_even_bounds {lo hi b c L U k : Int} (hk : 0 ≤ k) (hb : inInt64 b)
    (hc : inInt64 c) (hS : inInt64 (L + b + c + U)) (h1 : lo ≤ b) (h2 : b ≤ c) (h3 : c ≤ hi)
    (hL1 : k * lo ≤ L) (hL2 : L ≤ k * b) (hU1 : k * c ≤ U) (hU2 : U ≤ k * hi) :
    lo ≤ div64 (add64 b c) 2 ∧ div64 (add64 b c) 2 ≤ hi := by
  have hdiv : div64 (add64 b c) 2 = (wrap64 (b + c)).tdiv 2 :=
    div64_eq_tdiv (by norm_num) (inInt64_wrap64 _)
  rw [hdiv]
  obtain ⟨hw1, hw2, hw3⟩ := wrap64_cases (b + c)
  obtain ⟨hq1, hq2⟩ := tdiv_two_bounds (wrap64 (b + c))
  unfold inInt64 at *
  by_cases hin : -2 ^ 63 ≤ b + c ∧ b + c < 2 ^ 63
  · rw [hw1 hin] at hq1 hq2 ⊢
    rcases le_or_lt 0 (b + c) with h0 | h0
    · have := hq1 h0
      omega
    · have := hq2 h0
      omega
  · rcases le_or_lt (2 ^ 63) (b + c) with hpos | hneg
    · have hw : wrap64 (b + c) = b + c - 2 ^ 64 := hw2 hpos (by omega)
      rw [hw] at hq1 hq2 ⊢
      have hq := hq2 (by omega)
      constructor
      · by_contra hcon
        have hlc : 0 ≤ lo + c := by omega
        have hprod := mul_nonneg hk hlc
        have hexp : k * (lo + c) = k * lo + k * c := by ring
        omega
      · omega
    · have hlt : b + c < -2 ^ 63 := by omega
      have hw : wrap64 (b + c) = b + c + 2 ^ 64 := hw3 hlt (by omega)
      rw [hw] at hq1 hq2 ⊢
      have hq := hq1 (by omega)
      constructor
      · omega
      · by_contra hcon
        have hbh : 0 ≤ -(b + hi) := by omega
        have hprod := mul_nonneg hk hbh
        have hexp : k * -(b + hi) = -(k * b) - k * hi := by ring
        omega

theorem getD_mem {s : List Int} {i : Nat} (h : i < s.length) : s.getD i 0 ∈ s := by
  rw [List.getD_eq_getElem _ _ h]
  exact List.getElem_mem h

theorem split_middle (s : List Int) (m : Nat) (hm : 1 ≤ m) (hlen : m < s.length) :
    s = s.take (m - 1) ++ s.getD (m - 1) 0 :: s.getD m 0 :: s.drop (m + 1) := by
  have h1 : m - 1 < s.length := by omega
  have e1 : s.drop (m - 1) = s[m - 1] :: s.drop (m - 1 + 1) := List.drop_eq_getElem_cons h1
  have e2 : s.drop m = s[m] :: s.drop (m + 1) := List.drop_eq_getElem_cons hlen
  have e3 : m - 1 + 1 = m := by omega
  rw [e3, e2] at e1
  rw [List.getD_eq_getElem _ _ h1, List.getD_eq_getElem _ _ hlen, ← e1]
  exact (List.take_append_drop (m - 1) s).symm

theorem median_bounds {ds : List Int} (h : ds ≠ []) (hin : ∀ d ∈ ds, inInt64 d)
    (hsum : inInt64 ds.sum) :
    (scan ds).min ≤ medianOf (sortDurations ds) ds.length ∧
      medianOf (sortDurations ds) ds.length ≤ (scan ds).max := by
  have hpos : 0 < ds.length := List.length_pos.mpr h
  have hperm := sortDurations_perm ds
  have hsorted := sortDurations_sorted ds
  have hlen := sortDurations_length ds
  have hmem : ∀ x ∈ sortDurations ds, x ∈ ds := fun x hx => hperm.subset hx
  unfold medianOf
  split_ifs with hev
  · -- even number of samples
    have hm1 : 1 ≤ ds.length / 2 := by omega
    have hm2 : ds.length / 2 < (sortDurations ds).length := by omega
    have hsplit := split_middle (sortDurations ds) (ds.length / 2) hm1 hm2
    generalize hb : (sortDurations ds).getD (ds.length / 2 - 1) 0 = b at hsplit ⊢
    generalize hc : (sortDurations ds).getD (ds.length / 2) 0 = c at hsplit ⊢
    have hbmem : b ∈ ds := by
      rw [← hb]
      exact hmem _ (getD_mem (by omega))
    have hcmem : c ∈ ds := by
      rw [← hc]
      exact hmem _ (getD_mem hm2)
    have hsum2 : ds.sum = ((sortDurations ds).take (ds.length / 2 - 1)).sum + b + c +
        ((sortDurations ds).drop (ds.length / 2 + 1)).sum := by
      rw [← hperm.sum_eq]
      conv_lhs => rw [hsplit]
      simp only [List.sum_append, List.sum_cons]
      ring
    rw [hsplit] at hsorted
    obtain ⟨_, hs2, hs3⟩ := List.pairwise_append.mp hsorted
    obtain ⟨hs4, hs5⟩ := List.pairwise_cons.mp hs2
    obtain ⟨hs6, _⟩ := List.pairwise_cons.mp hs5
    have hlenL : (((sortDurations ds).take (ds.length / 2 - 1)).length : Int) =
        ((ds.length / 2 - 1 : Nat) : Int) := by
      rw [List.length_take]
      congr 1
      omega
    have hlenU : (((sortDurations ds).drop (ds.length / 2 + 1)).length : Int) =
        ((ds.length / 2 - 1 : Nat) : Int) := by
      rw [List.length_drop]
      congr 1
      omega
    have hL1 := length_mul_le_sum ((sortDurations ds).take (ds.length / 2 - 1)) (scan ds).min
      fun x hx => scan_min_le (hmem x (List.mem_of_mem_take hx))
    have hL2 := sum_le_length_mul ((sortDurations ds).take (ds.length / 2 - 1)) b
      fun x hx => hs3 x hx b (List.mem_cons_self _ _)
    have hU1 := length_mul_le_sum ((sortDurations ds).drop (ds.length / 2 + 1)) c
      fun x hx => hs6 x hx
    have hU2 := sum_le_length_mul ((sortDurations ds).drop (ds.length / 2 + 1)) (scan ds).max
      fun x hx => scan_le_max (hmem x (List.mem_of_mem_drop hx))
    rw [hlenL] at hL1 hL2
    rw [hlenU] at hU1 hU2
    rw [hsum2] at hsum
    exact median_even_bounds (Int.ofNat_nonneg _) (hin b hbmem) (hin c hcmem) hsum
      (scan_min_le hbmem) (hs4 c (List.mem_cons_self _ _)) (scan_le_max hcmem) hL1 hL2 hU1 hU2
  · -- odd number of samples
    have hx : (sortDurations ds).getD (ds.length / 2) 0 ∈ ds :=
      hmem _ (getD_mem (by omega))
    exact ⟨scan_min_le hx, scan_le_max hx⟩

/-! ## Ordering of the statistics -/

/-- C1 (amended): for every non-empty sequence of `int64` durations whose exact sum is
representable in `int64`, and every `inputSize`, `calculateStats` returns a result with
`Min ≤ Median ≤ Max` and `Min ≤ Mean ≤ Max`. -/
theorem calculateStats_ordered (awkName program : String) (durations : List Int)
    (inputSize : Int) (hne : durations ≠ []) (hin : ∀ d ∈ durations, inInt64 d)
    (hsum : inInt64 durations.sum) :
    ∃ r, calculateStats awkName program durations inputSize = some r ∧
      r.Min ≤ r.Median ∧ r.Median ≤ r.Max ∧ r.Min ≤ r.Mean ∧ r.Mean ≤ r.Max := by
  refine ⟨_, calculateStats_eq awkName program hne inputSize, ?_⟩
  obtain ⟨h1, h2⟩ := median_bounds hne hin hsum
  obtain ⟨h3, h4⟩ := mean_bounds hne hsum
  exact ⟨h1, h2, h3, h4⟩

/-- C1 (witness): the amended ordering statement applied to `[100ms, 200ms, 300ms]`. -/
theorem calculateStats_ordered_witness :
    ([100000000, 200000000, 300000000] ≠ ([] : List Int) ∧
      (∀ d ∈ ([100000000, 200000000, 300000000] : List Int), inInt64 d) ∧
      inInt64 ([100000000, 200000000, 300000000] : List Int).sum) ∧
    ∃ r, calculateStats "uawk" "sum.awk" [100000000, 200000000, 300000000] 314572800 = some r ∧
      r.Min ≤ r.Median ∧ r.Median ≤ r.Max ∧ r.Min ≤ r.Mean ∧ r.Mean ≤ r.Max :=
  ⟨by decide, calculateStats_ordered "uawk" "sum.awk" [100000000, 200000000, 300000000]
    314572800 (by decide) (by decide) (by decide)⟩

/-- C1 (counterexample): two samples of `2^62` ns are both `int64` durations, yet their sum
wraps and the returned `Mean` is `-2^62`, below `Min = 2^62`. -/
theorem calculateStats_ordered_counterexample :
    (∀ d ∈ ([4611686018427387904, 4611686018427387904] : List Int), inInt64 d) ∧
    ∃ r, calculateStats "uawk" "sum.awk" [4611686018427387904, 4611686018427387904] 1048576
        = some r ∧
      r.Min = 4611686018427387904 ∧ r.Mean = -4611686018427387904 ∧
      ¬ (r.Min ≤ r.Median ∧ r.Median ≤ r.Max ∧ r.Min ≤ r.Mean ∧ r.Mean ≤ r.Max) :=
  ⟨by decide, _, calculateStats_eq "uawk" "sum.awk" (by decide) 1048576, by decide, by decide,
    by decide⟩

/-! ## The standard deviation -/

theorem sqrtStep_eq {x z : ℚ} (hz : 0 < z) : sqrtStep x z = z / 2 + x / (2 * z) := by
  unfold sqrtStep
  field_simp
  ring

theorem sqrtStep_ge {x z : ℚ} (hx : 0 < x) (hz : 0 < z) :
    0 < sqrtStep x z ∧ z / 2 ≤ sqrtStep x z := by
  rw [sqrtStep_eq hz]
  have h : 0 < x / (2 * z) := by positivity
  constructor
  · positivity
  · linarith

theorem sqrtStep_iterate_ge {x : ℚ} (hx : 0 < x) :
    ∀ (k : Nat) (z : ℚ), 0 < z → 0 < (sqrtStep x)^[k] z ∧ z / 2 ^ k ≤ (sqrtStep x)^[k] z := by
  intro k
  induction k with
  | zero =>
    intro z hz
    simpa using hz
  | succ k ih =>
    intro z hz
    obtain ⟨h1, h2⟩ := sqrtStep_ge hx hz
    obtain ⟨h3, h4⟩ := ih (sqrtStep x z) h1
    rw [Function.iterate_succ_apply]
    refine ⟨h3, le_trans ?_ h4⟩
    rw [pow_succ, div_le_div_iff₀ (by positivity) (by positivity)]
    have hp : (0 : ℚ) < 2 ^ k := by positivity
    nlinarith

/-- Ten Newton steps from `x / 2` at most halve the iterate ten times: the value `sqrt` returns
is never below `x / 2048`. -/
theorem sqrt_ge {x : ℚ} (hx : 0 < x) : x / 2048 ≤ sqrt x := by
  unfold sqrt
  rw [if_neg (not_le.mpr hx)]
  have h := (sqrtStep_iterate_ge hx 10 (x / 2) (by positivity)).2
  have e : x / 2 / 2 ^ 10 = x / 2048 := by
    rw [div_div]
    norm_num
  rw [e] at h
  exact h

theorem toDuration_eq_floor {q : ℚ} (hq : 0 ≤ q) : toDuration q = ⌊q⌋ := by
  unfold toDuration
  rw [Rat.floor_def, Int.tdiv_eq_ediv (Rat.num_nonneg.mpr hq) (Int.ofNat_nonneg _)]

theorem le_toDuration {q : ℚ} {K : Int} (hK : 0 ≤ K) (h : (K : ℚ) ≤ q) : K ≤ toDuration q := by
  have hq : 0 ≤ q := le_trans (by exact_mod_cast hK) h
  rw [toDuration_eq_floor hq]
  exact Int.le_floor.mpr h

theorem foldl_varStep (m : ℚ) (ds : List Int) :
    ∀ v : ℚ, ds.foldl (varStep m) v = v + (ds.map fun d : Int => ((d : ℚ) - m) ^ 2).sum := by
  induction ds with
  | nil =>
    intro v
    simp
  | cons d t ih =>
    intro v
    rw [List.foldl_cons, ih]
    simp only [varStep, List.map_cons, List.sum_cons]
    ring

/-- The variance `calculateStats` feeds to `sqrt` is the population variance around `Mean`. -/
theorem variance_eq_popVariance (mean : Int) (ds : List Int) :
    ds.foldl (varStep (mean : ℚ)) 0 / (ds.length : ℚ) = popVariance ds mean := by
  rw [foldl_varStep, zero_add]
  rfl

/-- C2 (code at the failing input): for `[100ms, 200ms, 300ms]` the population standard
deviation around the returned `Mean` is `81649658` ns, while the returned `StdDev` is at least
`3255208333333` ns (more than 54 minutes), so `StdDev` is not the population standard
deviation. -/
theorem calculateStats_stdDev_sample :
    ∃ r, calculateStats "uawk" "sum.awk" [100000000, 200000000, 300000000] 314572800 = some r ∧
      IsPopulationStdDev [100000000, 200000000, 300000000] r.Mean 81649658 ∧
      3255208333333 ≤ r.StdDev ∧
      ¬ IsPopulationStdDev [100000000, 200000000, 300000000] r.Mean r.StdDev := by
  refine ⟨_, calculateStats_eq "uawk" "sum.awk" (by decide) 314572800, ?_⟩
  have hmean : div64 (scan [100000000, 200000000, 300000000]).sum
      (([100000000, 200000000, 300000000] : List Int).length : Int) = 200000000 := by decide
  have hvar : popVariance [100000000, 200000000, 300000000] 200000000
      = 20000000000000000 / 3 := by
    simp only [popVariance, List.map_cons, List.map_nil, List.sum_cons, List.sum_nil,
      List.length_cons, List.length_nil]
    norm_num
  have hsd : (3255208333333 : Int) ≤ toDuration (sqrt (20000000000000000 / 3)) := by
    refine le_toDuration (by norm_num) (le_trans ?_ (sqrt_ge (by norm_num)))
    norm_num
  simp only [variance_eq_popVariance, hmean, hvar]
  refine ⟨?_, hsd, ?_⟩
  · unfold IsPopulationStdDev
    rw [hvar]
    norm_num
  · unfold IsPopulationStdDev
    rw [hvar]
    intro hcon
    have h1 : ((3255208333333 : Int) : ℚ) ≤
        ((toDuration (sqrt (20000000000000000 / 3)) : Int) : ℚ) := by exact_mod_cast hsd
    have h2 := hcon.2.1
    norm_num at h1
    nlinarith

/-! ## Constant sequences -/

theorem sortDurations_replicate (k : Nat) (d : Int) :
    sortDurations (List.replicate k d) = List.replicate k d :=
  sortDurations_eq_of_sorted (List.Perm.refl _)
    (List.pairwise_replicate.mpr (Or.inr (le_refl d)))

theorem getD_replicate {k i : Nat} (d : Int) (h : i < k) : (List.replicate k d).getD i 0 = d :=
  List.eq_of_mem_replicate (getD_mem (by simpa using h))

/-- C4 (amended): for every `k ≥ 1` and every duration `d` such that `k * d` is representable
in `int64`, `calculateStats` applied to `k` copies of `d` returns
`Min = Max = Mean = Median = d` and `StdDev = 0`. -/
theorem calculateStats_replicate (awkName program : String) (k : Nat) (d : Int)
    (inputSize : Int) (hk : 1 ≤ k) (hkd : inInt64 ((k : Int) * d)) :
    ∃ r, calculateStats awkName program (List.replicate k d) inputSize = some r ∧
      r.Min = d ∧ r.Max = d ∧ r.Mean = d ∧ r.Median = d ∧ r.StdDev = 0 := by
  have hne : List.replicate k d ≠ [] := by
    intro h
    have := congrArg List.length h
    simp at this
    omega
  have hk0 : (0 : Int) < k := by omega
  have hsum : (List.replicate k d).sum = (k : Int) * d := by
    simp [List.sum_replicate, nsmul_eq_mul]
  have hmean : div64 (scan (List.replicate k d)).sum ((List.replicate k d).length : Int) = d := by
    rw [mean_eq_tdiv hne (by rw [hsum]; exact hkd), hsum, List.length_replicate]
    exact Int.mul_tdiv_cancel_left d (ne_of_gt hk0)
  refine ⟨_, calculateStats_eq awkName program hne inputSize, ?_, ?_, ?_, ?_, ?_⟩
  · exact List.eq_of_mem_replicate (scan_min_mem hne)
  · exact List.eq_of_mem_replicate (scan_max_mem hne)
  · exact hmean
  · show medianOf (sortDurations (List.replicate k d)) (List.replicate k d).length = d
    rw [sortDurations_replicate, List.length_replicate]
    unfold medianOf
    split_ifs with hev
    · rw [getD_replicate d (by omega), getD_replicate d (by omega)]
      have h2 : inInt64 (d + d) := by
        unfold inInt64 at *
        have hk2 : (2 : Int) ≤ k := by omega
        constructor <;> nlinarith
      unfold add64
      rw [wrap64_of_inInt64 h2, div64_eq_tdiv (by norm_num) h2]
      have e : d + d = 2 * d := by ring
      rw [e]
      exact Int.mul_tdiv_cancel_left d (by norm_num)
    · exact getD_replicate d (by omega)
  · show toDuration (sqrt _) = 0
    rw [hmean, variance_eq_popVariance]
    have hv : popVariance (List.replicate k d) d = 0 := by
      unfold popVariance
      simp
    rw [hv]
    simp [sqrt, toDuration]

/-- C4 (witness): five runs of `200ms` each. -/
theorem calculateStats_replicate_witness :
    (1 ≤ 5 ∧ inInt64 (((5 : Nat) : Int) * 200000000)) ∧
    ∃ r, calculateStats "uawk" "sum.awk" (List.replicate 5 200000000) 314572800 = some r ∧
      r.Min = 200000000 ∧ r.Max = 200000000 ∧ r.Mean = 200000000 ∧ r.Median = 200000000 ∧
      r.StdDev = 0 :=
  ⟨⟨by decide, by decide⟩,
    calculateStats_replicate "uawk" "sum.awk" 5 200000000 314572800 (by decide) (by decide)⟩

/-- C4 (counterexample): three copies of `d = 2^62` ns. The sum `3 * 2^62` wraps to `-2^62` and
the returned `Mean` is `-1537228672809129301`, not `d`. -/
theorem calculateStats_replicate_counterexample :
    inInt64 4611686018427387904 ∧
    ∃ r, calculateStats "uawk" "sum.awk" (List.replicate 3 4611686018427387904) 1048576
        = some r ∧
      r.Mean = -1537228672809129301 ∧
      ¬ (r.Min = 4611686018427387904 ∧ r.Max = 4611686018427387904 ∧
        r.Mean = 4611686018427387904 ∧ r.Median = 4611686018427387904 ∧ r.StdDev = 0) :=
  ⟨by decide, _, calculateStats_eq "uawk" "sum.awk" (by decide) 1048576, by decide,
    fun h => absurd h.2.2.1 (by decide)⟩

/-! ## The median against its reference -/

/-- C5 (amended): for every non-empty sample sequence of length `n` and every ascending
arrangement `sorted` of it, `Median` returned by `calculateStats` equals the reference median of
`sorted` (element `n / 2` for odd `n`, truncated mean of elements `n / 2 - 1` and `n / 2` for
even `n`), provided that for even `n` the exact sum of those two elements is representable in
`int64`. -/
theorem calculateStats_median (awkName program : String) (durations sorted : List Int)
    (inputSize : Int) (hne : durations ≠ []) (hp : sorted.Perm durations)
    (hs : sorted.Sorted (· ≤ ·))
    (hmid : durations.length % 2 = 0 →
      inInt64 (sorted.getD (sorted.length / 2 - 1) 0 + sorted.getD (sorted.length / 2) 0)) :
    ∃ r, calculateStats awkName program durations inputSize = some r ∧
      r.Median = medianRef sorted := by
  refine ⟨_, calculateStats_eq awkName program hne inputSize, ?_⟩
  show medianOf (sortDurations durations) durations.length = medianRef sorted
  rw [sortDurations_eq_of_sorted hp hs]
  have hlen : sorted.length = durations.length := hp.length_eq
  unfold medianOf medianRef
  rw [hlen] at hmid ⊢
  by_cases hev : durations.length % 2 = 0
  · have hodd : ¬ durations.length % 2 = 1 := by omega
    rw [if_pos hev, if_neg hodd]
    unfold add64
    rw [wrap64_of_inInt64 (hmid hev), div64_eq_tdiv (by norm_num) (hmid hev)]
  · have hodd : durations.length % 2 = 1 := by omega
    rw [if_neg hev, if_pos hodd]

/-- C5 (witness): `[100ms, 200ms, 300ms]` has median `200ms`. -/
theorem calculateStats_median_witness :
    (([300000000, 100000000, 200000000] : List Int) ≠ [] ∧
      List.Perm [100000000, 200000000, 300000000] ([300000000, 100000000, 200000000] : List Int) ∧
      List.Sorted (· ≤ ·) ([100000000, 200000000, 300000000] : List Int)) ∧
    medianRef [100000000, 200000000, 300000000] = 200000000 ∧
    ∃ r, calculateStats "uawk" "sum.awk" [300000000, 100000000, 200000000] 314572800 = some r ∧
      r.Median = medianRef [100000000, 200000000, 300000000] :=
  ⟨⟨by decide, by decide, by decide⟩, by decide,
    calculateStats_median "uawk" "sum.awk" [300000000, 100000000, 200000000]
      [100000000, 200000000, 300000000] 314572800 (by decide) (by decide) (by decide)
      (by decide)⟩

/-- C5 (counterexample): for the ascending pair `[2^62, 2^62 + 2]` the reference median is
`2^62 + 1`, but the sum of the two middle elements wraps and the returned `Median` is
`-2^62 + 1`. -/
theorem calculateStats_median_counterexample :
    ((∀ d ∈ ([4611686018427387904, 4611686018427387906] : List Int), inInt64 d) ∧
      List.Sorted (· ≤ ·) ([4611686018427387904, 4611686018427387906] : List Int)) ∧
    medianRef [4611686018427387904, 4611686018427387906] = 4611686018427387905 ∧
    ∃ r, calculateStats "uawk" "sum.awk" [4611686018427387904, 4611686018427387906] 1048576
        = some r ∧
      r.Median = -4611686018427387903 ∧
      r.Median ≠ medianRef [4611686018427387904, 4611686018427387906] :=
  ⟨⟨by decide, by decide⟩, by decide, _,
    calculateStats_eq "uawk" "sum.awk" (by decide) 1048576, by decide, by decide⟩

/-! ## The running sum on realistic inputs -/

theorem scanAfter_length (ds : List Int) : scanAfter ds ds.length = scan ds := by
  simp [scanAfter, scan]

theorem scanAfter_sum (ds : List Int) (k : Nat) :
    (scanAfter ds k).sum = wrap64 (ds.take k).sum := by
  have h0 : inInt64 (0 : Int) := by decide
  unfold scanAfter
  rw [foldl_scanStep_sum _ _ h0]
  simp

theorem scanAfter_succ (ds : List Int) (k : Nat) (hk : k < ds.length) :
    (scanAfter ds (k + 1)).sum = add64 (scanAfter ds k).sum (ds.getD k 0) := by
  unfold scanAfter
  rw [List.take_succ, List.foldl_append]
  simp [List.getElem?_eq_getElem hk, scanStep, List.getD_eq_getElem _ _ hk]

theorem sum_take_bounds {ds : List Int} {B : Int} (hB : 0 ≤ B)
    (hin : ∀ d ∈ ds, 0 ≤ d ∧ d ≤ B) (k : Nat) :
    0 ≤ (ds.take k).sum ∧ (ds.take k).sum ≤ (k : Int) * B := by
  constructor
  · exact List.sum_nonneg fun x hx => (hin x (List.mem_of_mem_take hx)).1
  · have h1 := sum_le_length_mul (ds.take k) B fun x hx => (hin x (List.mem_of_mem_take hx)).2
    have h2 : ((ds.take k).length : Int) ≤ k := by
      have := List.length_take_le k ds
      omega
    exact le_trans h1 (mul_le_mul_of_nonneg_right h2 hB)

/-- C6: for every non-empty sequence of at most 1,000,000 samples, each between `0` and the
default timeout of 5 minutes, the `int64` running sum of `calculateStats` never wraps (after `k`
iterations it is the exact sum of the first `k` samples, and adding the next sample stays in
range, so the machine addition is the exact one) and `Mean` is the exact sum of the samples
divided by their number, rounded down. -/
theorem calculateStats_mean_exact (awkName program : String) (durations : List Int)
    (inputSize : Int) (hne : durations ≠ []) (hlen : durations.length ≤ 1000000)
    (hin : ∀ d ∈ durations, 0 ≤ d ∧ d ≤ NewRunner.Timeout) :
    (∀ k, k < durations.length →
      (scanAfter durations k).sum = (durations.take k).sum ∧
      inInt64 ((scanAfter durations k).sum + durations.getD k 0) ∧
      (scanAfter durations (k + 1)).sum = (scanAfter durations k).sum + durations.getD k 0) ∧
    ∃ r, calculateStats awkName program durations inputSize = some r ∧
      r.Mean = durations.sum / (durations.length : Int) := by
  have hT : NewRunner.Timeout = 300000000000 := by decide
  rw [hT] at hin
  have hrange : ∀ k, k ≤ durations.length → inInt64 (durations.take k).sum := by
    intro k hk
    obtain ⟨h1, h2⟩ := sum_take_bounds (by norm_num) hin k
    unfold inInt64
    have hk2 : (k : Int) ≤ 1000000 := by omega
    constructor <;> nlinarith
  constructor
  · intro k hk
    have e1 : (scanAfter durations k).sum = (durations.take k).sum := by
      rw [scanAfter_sum, wrap64_of_inInt64 (hrange k hk.le)]
    have e2 : (durations.take k).sum + durations.getD k 0 = (durations.take (k + 1)).sum := by
      rw [List.take_succ, List.sum_append]
      simp [List.getElem?_eq_getElem hk, List.getD_eq_getElem _ _ hk]
    have h3 : inInt64 ((scanAfter durations k).sum + durations.getD k 0) := by
      rw [e1, e2]
      exact hrange (k + 1) hk
    refine ⟨e1, h3, ?_⟩
    rw [scanAfter_succ durations k hk]
    exact wrap64_of_inInt64 h3
  · refine ⟨_, calculateStats_eq awkName program hne inputSize, ?_⟩
    have hsum : inInt64 durations.sum := by
      have := hrange durations.length le_rfl
      rwa [List.take_length] at this
    show div64 (scan durations).sum (durations.length : Int) = _
    rw [mean_eq_tdiv hne hsum]
    exact Int.tdiv_eq_ediv (List.sum_nonneg fun x hx => (hin x hx).1) (Int.ofNat_nonneg _)

/-- C6 (witness): `[100ms, 200ms, 300ms]` has mean `200ms`. -/
theorem calculateStats_mean_exact_witness :
    (([100000000, 200000000, 300000000] : List Int) ≠ [] ∧
      ([100000000, 200000000, 300000000] : List Int).length ≤ 1000000 ∧
      (∀ d ∈ ([100000000, 200000000, 300000000] : List Int), 0 ≤ d ∧ d ≤ NewRunner.Timeout)) ∧
    ([100000000, 200000000, 300000000] : List Int).sum / 3 = 200000000 ∧
    ∃ r, calculateStats "uawk" "sum.awk" [100000000, 200000000, 300000000] 314572800 = some r ∧
      r.Mean = ([100000000, 200000000, 300000000] : List Int).sum /
        (([100000000, 200000000, 300000000] : List Int).length : Int) :=
  ⟨⟨by decide, by decide, by decide⟩, by decide,
    (calculateStats_mean_exact "uawk" "sum.awk" [100000000, 200000000, 300000000] 314572800
      (by decide) (by decide) (by decide)).2⟩

/-! ## Throughput -/

/-- `Duration.Seconds` is the duration divided by `10^9`. -/
theorem Seconds_eq (d : Int) : Seconds d = (d : ℚ) / 1000000000 := by
  unfold Seconds
  have h := Int.tdiv_add_tmod d Second
  have h2 : ((Second * d.tdiv Second + d.tmod Second : Int) : ℚ) = (d : ℚ) := by rw [h]
  push_cast at h2
  simp only [Second] at h2 ⊢
  push_cast at h2
  field_simp
  linarith

theorem throughputOf_spec (mean inputSize : Int) :
    ((inputSize ≤ 0 ∨ mean = 0) → throughputOf mean inputSize = 0) ∧
      0 ≤ throughputOf mean inputSize ∧
      (0 < mean → 0 < inputSize →
        throughputOf mean inputSize = (inputSize : ℚ) / 2 ^ 20 / ((mean : ℚ) / 10 ^ 9)) := by
  unfold throughputOf
  refine ⟨?_, ?_, ?_⟩
  · intro h
    rw [if_neg]
    omega
  · split_ifs with h
    · rw [Seconds_eq]
      have h1 : (0 : ℚ) < mean := by exact_mod_cast h.1
      have h2 : (0 : ℚ) < inputSize := by exact_mod_cast h.2
      positivity
    · exact le_refl _
  · intro h1 h2
    rw [if_pos ⟨h1, h2⟩, Seconds_eq]
    norm_num

/-- C7: for every non-empty sample sequence and every `inputSize`, `Throughput` returned by
`calculateStats` is exactly `0` whenever `inputSize ≤ 0` or `Mean = 0`, is never negative, and
when `Mean > 0` and `inputSize > 0` equals `inputSize / 2^20` divided by `Mean` in seconds
(`Mean / 10^9`). -/
theorem calculateStats_throughput (awkName program : String) (durations : List Int)
    (inputSize : Int) (hne : durations ≠ []) :
    ∃ r, calculateStats awkName program durations inputSize = some r ∧
      ((inputSize ≤ 0 ∨ r.Mean = 0) → r.Throughput = 0) ∧
      0 ≤ r.Throughput ∧
      (0 < r.Mean → 0 < inputSize →
        r.Throughput = (inputSize : ℚ) / 2 ^ 20 / ((r.Mean : ℚ) / 10 ^ 9)) :=
  ⟨_, calculateStats_eq awkName program hne inputSize, throughputOf_spec _ _⟩

/-- C7 (witness): `[100ms, 200ms, 300ms]` with an input of `300 * 2^20` bytes give a throughput
of `1500`. -/
theorem calculateStats_throughput_witness :
    ([100000000, 200000000, 300000000] : List Int) ≠ [] ∧
    ∃ r, calculateStats "uawk" "sum.awk" [100000000, 200000000, 300000000] (300 * 2 ^ 20)
        = some r ∧
      ((300 * 2 ^ 20 ≤ (0 : Int) ∨ r.Mean = 0) → r.Throughput = 0) ∧
      0 ≤ r.Throughput ∧ r.Mean = 200000000 ∧ r.Throughput = 1500 := by
  obtain ⟨r, hr, h1, h2, h3⟩ := calculateStats_throughput "uawk" "sum.awk"
    [100000000, 200000000, 300000000] (300 * 2 ^ 20) (by decide)
  have hmean : r.Mean = 200000000 := by
    rw [calculateStats_eq "uawk" "sum.awk" (by decide) (300 * 2 ^ 20)] at hr
    rw [← Option.some.inj hr]
    decide
  refine ⟨by decide, r, hr, h1, h2, hmean, ?_⟩
  rw [h3 (by rw [hmean]; decide) (by decide), hmean]
  norm_num

/-! ## `Benchmark`: the two loops -/

theorem warmupLoop_ok (run : Nat → Result) :
    ∀ (n calls : Nat), (∀ k, calls ≤ k → k < calls + n → (run k).Error = none) →
      warmupLoop run n calls = (calls + n, none) := by
  intro n
  induction n with
  | zero =>
    intro calls _
    rfl
  | succ n ih =>
    intro calls h
    have h0 := h calls le_rfl (by omega)
    have h1 := ih (calls + 1) fun k hk1 hk2 => h k (by omega) (by omega)
    simp only [warmupLoop, h0, h1]
    congr 1
    omega

theorem warmupLoop_fail (run : Nat → Result) (i : Nat) (e : String)
    (hfail : (run i).Error = some e) :
    ∀ (n calls : Nat), calls ≤ i → i < calls + n →
      (∀ k, calls ≤ k → k < i → (run k).Error = none) →
      warmupLoop run n calls = (i + 1, some e) := by
  intro n
  induction n with
  | zero =>
    intro calls h1 h2 _
    omega
  | succ n ih =>
    intro calls h1 h2 h
    by_cases hc : calls = i
    · subst hc
      simp only [warmupLoop, hfail]
    · have h0 := h calls le_rfl (by omega)
      have h3 := ih (calls + 1) (by omega) (by omega) fun k hk1 hk2 => h k (by omega) hk2
      simp only [warmupLoop, h0, h3]

theorem measuredLoop_fail (run : Nat → Result) (i : Nat) (e : String)
    (hfail : (run i).Error = some e) :
    ∀ (n j calls : Nat) (ds : List Int), calls ≤ i → i < calls + n →
      (∀ k, calls ≤ k → k < i → (run k).Error = none) →
      measuredLoop run n j calls ds = (i + 1, .error e) := by
  intro n
  induction n with
  | zero =>
    intro j calls ds h1 h2 _
    omega
  | succ n ih =>
    intro j calls ds h1 h2 h
    by_cases hc : calls = i
    · subst hc
      simp only [measuredLoop, hfail]
    · have h0 := h calls le_rfl (by omega)
      have h3 := ih (j + 1) (calls + 1) (ds.set j (run calls).Duration) (by omega) (by omega)
        fun k hk1 hk2 => h k (by omega) hk2
      simp only [measuredLoop, h0, h3]

theorem measuredLoop_ok (run : Nat → Result) :
    ∀ (n j calls : Nat) (ds : List Int), ds.length = j + n →
      (∀ k, calls ≤ k → k < calls + n → (run k).Error = none) →
      measuredLoop run n j calls ds =
        (calls + n, .ok (ds.take j ++ (List.range n).map fun t => (run (calls + t)).Duration)) := by
  intro n
  induction n with
  | zero =>
    intro j calls ds hlen _
    have : ds.take j = ds := List.take_of_length_le (by omega)
    simp [measuredLoop, this]
  | succ n ih =>
    intro j calls ds hlen h
    have h0 := h calls le_rfl (by omega)
    have h3 := ih (j + 1) (calls + 1) (ds.set j (run calls).Duration)
      (by rw [List.length_set]; omega) fun k hk1 hk2 => h k (by omega) (by omega)
    simp only [measuredLoop, h0, h3]
    have hj : j < ds.length := by omega
    have e1 : (ds.set j (run calls).Duration).take (j + 1) =
        ds.take j ++ [(run calls).Duration] := by
      have e0 : (ds.set j (run calls).Duration).take j = ds.take j := by
        apply List.ext_getElem?
        intro t
        rw [List.getElem?_take, List.getElem?_take]
        split
        · rw [List.getElem?_set_ne (by omega)]
        · rfl
      rw [List.take_succ, e0]
      simp [List.getElem?_set_self hj]
    have e2 : (List.range (n + 1)).map (fun t => (run (calls + t)).Duration) =
        (run calls).Duration :: (List.range n).map fun t => (run (calls + 1 + t)).Duration := by
      rw [List.range_succ_eq_map, List.map_cons, List.map_map]
      simp only [Nat.add_zero, List.cons.injEq, true_and]
      apply List.map_congr_left
      intro t _
      simp only [Function.comp, Nat.succ_eq_add_one]
      congr 2
      omega
    rw [e1, e2, List.append_assoc]
    congr 1
    · omega

/-! ## `Benchmark`: failure and success -/

/-- C8: `Benchmark` aborts on the first failing run. If call number `i` (counting from `0`,
warmup calls first, then measured calls) is among the `Warmup + Runs` scheduled calls and is the
first whose outcome carries an error `e`, then `Benchmark` makes exactly `i + 1` calls of `Run`
and returns a nil result together with exactly the error `e`. -/
theorem Benchmark_first_failure (r : Runner) (run : Nat → Result) (awk : AWK)
    (programFile : String) (inputSize : Int) (i : Nat) (e : String)
    (hW : 0 ≤ r.Warmup) (hR : 0 ≤ r.Runs)
    (hi : (i : Int) < r.Warmup + r.Runs)
    (hfail : (run i).Error = some e) (hfirst : ∀ k < i, (run k).Error = none) :
    Benchmark r run awk programFile inputSize = (i + 1, .ret none (some e)) := by
  unfold Benchmark
  by_cases hw : i < r.Warmup.toNat
  · rw [warmupLoop_fail run i e hfail r.Warmup.toNat 0 (Nat.zero_le _) (by omega)
      fun k _ hk => hfirst k hk]
  · rw [warmupLoop_ok run r.Warmup.toNat 0 fun k _ hk => hfirst k (by omega)]
    simp only [Nat.zero_add]
    rw [if_neg (by omega)]
    rw [measuredLoop_fail run i e hfail r.Runs.toNat 0 r.Warmup.toNat _ (by omega) (by omega)
      fun k _ hk => hfirst k hk]

/-- C8 (witness): one warmup and five measured runs, the fourth call failing: four calls are
made, no result is returned and the error is the one of the fourth call. -/
theorem Benchmark_first_failure_witness :
    ((0 : Int) ≤ (driverRunner 5 1).Warmup ∧ (0 : Int) ≤ (driverRunner 5 1).Runs ∧
      ((3 : Nat) : Int) < (driverRunner 5 1).Warmup + (driverRunner 5 1).Runs ∧
      (flakyRun 3).Error = some "exit status 2: syntax error" ∧
      ∀ k < 3, (flakyRun k).Error = none) ∧
    Benchmark (driverRunner 5 1) flakyRun { Name := "gawk", Command := "gawk", Args := ["-b"] }
      "sum.awk" 1048576 = (3 + 1, .ret none (some "exit status 2: syntax error")) :=
  ⟨⟨by decide, by decide, by decide, by decide, by decide⟩,
    Benchmark_first_failure (driverRunner 5 1) flakyRun
      { Name := "gawk", Command := "gawk", Args := ["-b"] } "sum.awk" 1048576 3
      "exit status 2: syntax error" (by decide) (by decide) (by decide) (by decide)
      (by decide)⟩

/-- C9 (code at the failing input): with `-runs 0 -warmup 1` and every run succeeding,
`Benchmark` makes the warmup call, hands the empty slice to `calculateStats` and returns a nil
result together with a nil error. -/
theorem Benchmark_zero_runs :
    (driverRunner 0 1).Runs = 0 ∧
    calculateStats "gawk" "sum.awk" [] 1048576 = none ∧
    Benchmark (driverRunner 0 1) steadyRun { Name := "gawk", Command := "gawk", Args := ["-b"] }
      "sum.awk" 1048576 = (1, .ret none none) := by
  refine ⟨by decide, calculateStats_nil _ _ _, ?_⟩
  decide

/-- C10: when every scheduled run succeeds (`Warmup ≥ 0`, `Runs ≥ 1`), `Benchmark` makes exactly
`Warmup + Runs` calls of `Run` and returns, with a nil error, the result of `calculateStats` on
the durations of the calls number `Warmup`, ..., `Warmup + Runs - 1` in that order (the calls
after the `Warmup` warmup calls); the `Runs` field of the result is the configured `Runs`. -/
theorem Benchmark_success (r : Runner) (run : Nat → Result) (awk : AWK)
    (programFile : String) (inputSize : Int) (hW : 0 ≤ r.Warmup) (hR : 1 ≤ r.Runs)
    (hok : ∀ k : Nat, (k : Int) < r.Warmup + r.Runs → (run k).Error = none) :
    ∃ res, Benchmark r run awk programFile inputSize =
        (r.Warmup.toNat + r.Runs.toNat, .ret (some res) none) ∧
      ((r.Warmup.toNat + r.Runs.toNat : Nat) : Int) = r.Warmup + r.Runs ∧
      calculateStats awk.Name programFile
        ((List.range r.Runs.toNat).map fun j => (run (r.Warmup.toNat + j)).Duration) inputSize
        = some res ∧
      res.Runs = r.Runs := by
  have hne : ((List.range r.Runs.toNat).map fun j => (run (r.Warmup.toNat + j)).Duration) ≠ [] := by
    intro h
    have := congrArg List.length h
    simp at this
    omega
  refine ⟨_, ?_, by omega, calculateStats_eq awk.Name programFile hne inputSize, ?_⟩
  · unfold Benchmark
    rw [warmupLoop_ok run r.Warmup.toNat 0 fun k _ hk => hok k (by omega)]
    simp only [Nat.zero_add]
    rw [if_neg (by omega)]
    rw [measuredLoop_ok run r.Runs.toNat 0 r.Warmup.toNat _ (by simp)
      fun k _ hk => hok k (by omega)]
    simp only [List.take_zero, List.nil_append]
    rw [calculateStats_eq awk.Name programFile hne inputSize]
  · show ((List.map _ _).length : Int) = r.Runs
    simp
    omega

/-- C10 (witness): one warmup and five measured runs, all succeeding: six calls, and the result
is that of `calculateStats` on the durations of calls `1` to `5`. -/
theorem Benchmark_success_witness :
    ((0 : Int) ≤ (driverRunner 5 1).Warmup ∧ (1 : Int) ≤ (driverRunner 5 1).Runs ∧
      ∀ k < 6, (steadyRun k).Error = none) ∧
    ∃ res, Benchmark (driverRunner 5 1) steadyRun
        { Name := "gawk", Command := "gawk", Args := ["-b"] } "sum.awk" 1048576 =
          (6, .ret (some res) none) ∧
      calculateStats "gawk" "sum.awk" [100000001, 100000002, 100000003, 100000004, 100000005]
        1048576 = some res ∧
      res.Runs = 5 := by
  obtain ⟨res, h1, _, h3, h4⟩ := Benchmark_success (driverRunner 5 1) steadyRun
    { Name := "gawk", Command := "gawk", Args := ["-b"] } "sum.awk" 1048576 (by decide)
    (by decide) (fun k _ => rfl)
  exact ⟨⟨by decide, by decide, by decide⟩, res, h1, h3, h4⟩

/-! ## `sortDurations`: termination and correctness -/

theorem sortInner_length (key : Int) :
    ∀ (j : Nat) (d : List Int), (sortInner key j d).length = d.length := by
  intro j
  induction j with
  | zero =>
    intro d
    simp [sortInner]
  | succ j ih =>
    intro d
    unfold sortInner
    split_ifs
    · rw [ih, List.length_set]
    · rw [List.length_set]

theorem sortInnerLoop_eq (key : Int) :
    ∀ (jp fuel : Nat) (d : List Int), jp < fuel →
      sortInnerLoop key fuel ((jp : Int) - 1) d = some (sortInner key jp d) := by
  intro jp
  induction jp with
  | zero =>
    intro fuel d hf
    obtain ⟨f, rfl⟩ : ∃ f, fuel = f + 1 := ⟨fuel - 1, by omega⟩
    simp [sortInnerLoop, sortInner]
  | succ jp ih =>
    intro fuel d hf
    obtain ⟨f, rfl⟩ : ∃ f, fuel = f + 1 := ⟨fuel - 1, by omega⟩
    have e1 : (((jp + 1 : Nat) : Int) - 1) = (jp : Int) := by omega
    have e2 : ((jp : Int) + 1).toNat = jp + 1 := by omega
    have e3 : (0 : Int) ≤ (jp : Int) := by omega
    unfold sortInnerLoop sortInner
    rw [e1, Int.toNat_ofNat, e2]
    by_cases hgt : d.getD jp 0 > key
    · rw [if_pos ⟨e3, hgt⟩, if_pos hgt]
      exact ih f _ (by omega)
    · rw [if_neg (fun h => hgt h.2), if_neg hgt]

theorem sortOuterLoop_eq (inner : Nat) :
    ∀ (m fuel i : Nat) (d : List Int), d.length = i + m → m < fuel → d.length < inner →
      sortOuterLoop inner fuel i d = some ((List.range' i m).foldl sortStep d) := by
  intro m
  induction m with
  | zero =>
    intro fuel i d hlen hf _
    obtain ⟨f, rfl⟩ : ∃ f, fuel = f + 1 := ⟨fuel - 1, by omega⟩
    have hi : ¬ i < d.length := by omega
    simp [sortOuterLoop, hi]
  | succ m ih =>
    intro fuel i d hlen hf hin
    obtain ⟨f, rfl⟩ : ∃ f, fuel = f + 1 := ⟨fuel - 1, by omega⟩
    have hi : i < d.length := by omega
    have hstep : sortInnerLoop (d.getD i 0) inner ((i : Int) - 1) d = some (sortStep d i) :=
      sortInnerLoop_eq (d.getD i 0) i inner d (by omega)
    have hlen2 : (sortStep d i).length = d.length := sortInner_length _ _ _
    unfold sortOuterLoop
    rw [if_pos hi, hstep]
    simp only [List.range'_succ, List.foldl_cons]
    exact ih f (i + 1) (sortStep d i) (by omega) (by omega) (by omega)

/-- C16: `sortDurations` sorts correctly. For every sequence of durations, empty and
single-element ones included, the result is in non-decreasing order and is a permutation of the
original contents, and the loops terminate: run one condition check at a time, they exit with
that result within any budget larger than `len(d)` checks per loop. -/
theorem sortDurations_correct (d : List Int) :
    (sortDurations d).Sorted (· ≤ ·) ∧ (sortDurations d).Perm d ∧
      ∀ fuel, d.length < fuel → sortDurationsLoop fuel d = some (sortDurations d) := by
  refine ⟨sortDurations_sorted d, sortDurations_perm d, ?_⟩
  intro fuel hf
  unfold sortDurationsLoop sortDurations
  cases d with
  | nil =>
    obtain ⟨f, rfl⟩ : ∃ f, fuel = f + 1 := ⟨fuel - 1, by omega⟩
    simp [sortOuterLoop]
  | cons a t =>
    have hlen : (a :: t).length = 1 + t.length := by
      simp only [List.length_cons]
      omega
    have h := sortOuterLoop_eq fuel t.length fuel 1 (a :: t) hlen
      (by simp only [List.length_cons] at hf; omega) hf
    simpa using h

/-- C16 (witness): a nine-element sequence with repeated and negative entries, the empty
sequence and a single-element one. -/
theorem sortDurations_correct_witness :
    sortDurations [5, 3, 9, -1, 3, 0, 7, 7, -4] = [-4, -1, 0, 3, 3, 5, 7, 7, 9] ∧
      sortDurationsLoop 10 [5, 3, 9, -1, 3, 0, 7, 7, -4] = some [-4, -1, 0, 3, 3, 5, 7, 7, 9] ∧
      sortDurationsLoop 1 [] = some [] ∧ sortDurationsLoop 2 [42] = some [42] ∧
      (sortDurations [5, 3, 9, -1, 3, 0, 7, 7, -4]).Sorted (· ≤ ·) ∧
      (sortDurations [5, 3, 9, -1, 3, 0, 7, 7, -4]).Perm [5, 3, 9, -1, 3, 0, 7, 7, -4] :=
  ⟨by decide, by decide, by decide, by decide,
    (sortDurations_correct [5, 3, 9, -1, 3, 0, 7, 7, -4]).1,
    (sortDurations_correct [5, 3, 9, -1, 3, 0, 7, 7, -4]).2.1⟩

/-! ## `FindAvailable` is an order-preserving filter -/

theorem foldl_findStep (host : Host) (awks : List AWK) :
    ∀ acc : List AWK, awks.foldl (findStep host) acc =
      acc ++ awks.filterMap fun a => (resolve host a.Command).map fun p => { a with Command := p } := by
  induction awks with
  | nil =>
    intro acc
    simp
  | cons a t ih =>
    intro acc
    rw [List.foldl_cons, ih]
    unfold findStep
    cases h : resolve host a.Command with
    | none => simp [List.filterMap_cons, h]
    | some p => simp [List.filterMap_cons, h]

theorem FindAvailable_eq_filterMap (host : Host) (awks : List AWK) :
    FindAvailable host awks =
      awks.filterMap fun a => (resolve host a.Command).map fun p => { a with Command := p } := by
  unfold FindAvailable
  rw [foldl_findStep]
  rfl

theorem FindAvailable_cons (host : Host) (a : AWK) (t : List AWK) :
    FindAvailable host (a :: t) =
      match resolve host a.Command with
      | some p => { a with Command := p } :: FindAvailable host t
      | none => FindAvailable host t := by
  rw [FindAvailable_eq_filterMap, FindAvailable_eq_filterMap, List.filterMap_cons]
  cases resolve host a.Command <;> rfl

theorem FindAvailable_sublist (host : Host) (awks : List AWK) :
    ((FindAvailable host awks).map fun a => (a.Name, a.Args)).Sublist
      (awks.map fun a => (a.Name, a.Args)) := by
  induction awks with
  | nil => simp [FindAvailable]
  | cons a t ih =>
    rw [FindAvailable_cons]
    cases resolve host a.Command with
    | none => exact List.Sublist.cons _ ih
    | some p => exact List.Sublist.cons₂ _ ih

theorem FindAvailable_mem (host : Host) (awks : List AWK) :
    ∀ b ∈ FindAvailable host awks, ∃ a ∈ awks,
      resolve host a.Command = some b.Command ∧ b.Name = a.Name ∧ b.Args = a.Args := by
  intro b hb
  rw [FindAvailable_eq_filterMap, List.mem_filterMap] at hb
  obtain ⟨a, ha, hab⟩ := hb
  cases h : resolve host a.Command with
  | none => simp [h] at hab
  | some p =>
    simp only [h, Option.map_some', Option.some.injEq] at hab
    subst hab
    exact ⟨a, ha, h, rfl, rfl⟩

/-- C15: `FindAvailable` is an order-preserving filter, for every host (`LookPath`, `Stat`,
`Getenv` and `Join` arbitrary functions) and every declared list. The output is the input list
with each candidate either dropped (no resolution strategy succeeds for its command) or kept
once with only `Command` replaced by the resolved path; hence the output's `(Name, Args)` pairs
form a subsequence of the input's in the same relative order, every kept candidate comes from an
input candidate whose command resolves, with the same `Name` and `Args`, and a candidate whose
command does not resolve contributes nothing (when its name is unique in the input, no output
candidate carries that name). -/
theorem FindAvailable_filter (host : Host) (awks : List AWK) :
    FindAvailable host awks =
        awks.filterMap (fun a => (resolve host a.Command).map fun p => { a with Command := p }) ∧
      ((FindAvailable host awks).map fun a => (a.Name, a.Args)).Sublist
        (awks.map fun a => (a.Name, a.Args)) ∧
      (∀ b ∈ FindAvailable host awks, ∃ a ∈ awks,
        resolve host a.Command = some b.Command ∧ b.Name = a.Name ∧ b.Args = a.Args) ∧
      (∀ a ∈ awks, resolve host a.Command = none → (∀ a2 ∈ awks, a2.Name = a.Name → a2 = a) →
        ∀ b ∈ FindAvailable host awks, b.Name ≠ a.Name) := by
  refine ⟨FindAvailable_eq_filterMap host awks, FindAvailable_sublist host awks,
    FindAvailable_mem host awks, ?_⟩
  intro a _ hnone huniq b hb hname
  obtain ⟨a2, ha2, hres, hn, _⟩ := FindAvailable_mem host awks b hb
  have : a2 = a := huniq a2 ha2 (hn.symm.trans hname)
  rw [this, hnone] at hres
  exact Option.noConfusion hres

/-- C15 (witness): on the sample host the default list is filtered to `goawk` (found under
`$HOME/go/bin` with the `.exe` suffix) and `gawk` (found on the search path), in the declared
order, with their names and arguments intact. -/
theorem FindAvailable_filter_witness :
    FindAvailable sampleHost DefaultAWKs =
        [ { Name := "goawk", Command := "/home/u/go/bin/goawk.exe", Args := [] },
          { Name := "gawk", Command := "/usr/bin/gawk", Args := ["-b"] } ] ∧
      ((FindAvailable sampleHost DefaultAWKs).map fun a => (a.Name, a.Args)).Sublist
        (DefaultAWKs.map fun a => (a.Name, a.Args)) :=
  ⟨by decide, (FindAvailable_filter sampleHost DefaultAWKs).2.1⟩

/-! ## `append` and the argument lists -/

theorem writeAt_eq :
    ∀ (xs a : List String) (i : Nat), i + xs.length ≤ a.length →
      writeAt a i xs = a.take i ++ xs ++ a.drop (i + xs.length) := by
  intro xs
  induction xs with
  | nil =>
    intro a i _
    simp [writeAt]
  | cons x xs ih =>
    intro a i hlen
    have hlen2 : i + (xs.length + 1) ≤ a.length := by simpa using hlen
    have hi : i < a.length := by omega
    unfold writeAt
    rw [ih (a.set i x) (i + 1) (by rw [List.length_set]; omega)]
    have e1 : (a.set i x).take (i + 1) = a.take i ++ [x] := by
      rw [List.set_eq_take_cons_drop x hi]
      have hl : (a.take i ++ [x]).length = i + 1 := by
        simp [List.length_take]
        omega
      have : a.take i ++ x :: a.drop (i + 1) = (a.take i ++ [x]) ++ a.drop (i + 1) := by simp
      rw [this, List.take_left' hl]
    have e2 : (a.set i x).drop (i + 1 + xs.length) = a.drop (i + 1 + xs.length) :=
      List.drop_set_of_lt x a (by omega)
    have e3 : i + (x :: xs).length = i + 1 + xs.length := by
      simp only [List.length_cons]
      omega
    rw [e1, e2, e3]
    simp

theorem elems_length {h : Heap} {s : Slice} (hv : ValidSlice h s) : (elems h s).length = s.len := by
  obtain ⟨_, h2, h3⟩ := hv
  unfold elems
  rw [List.length_take, List.length_drop]
  omega

/-- What `append` does to a valid slice: the result is valid, holds the old elements followed by
the new ones, and the only backing array of the old heap that may change is the one of `s`. -/
theorem sliceAppend_spec (grow : Nat → Nat) (h : Heap) (s : Slice) (xs : List String)
    (hv : ValidSlice h s) :
    ValidSlice (sliceAppend grow h s xs).1 (sliceAppend grow h s xs).2 ∧
      elems (sliceAppend grow h s xs).1 (sliceAppend grow h s xs).2 = elems h s ++ xs ∧
      h.length ≤ (sliceAppend grow h s xs).1.length ∧
      ((sliceAppend grow h s xs).2.arr = s.arr ∨ (sliceAppend grow h s xs).2.arr = h.length) ∧
      ∀ k, k < h.length → k ≠ s.arr →
        (sliceAppend grow h s xs).1.getD k [] = h.getD k [] := by
  have hlenE := elems_length hv
  obtain ⟨h1, h2, h3⟩ := hv
  unfold sliceAppend
  by_cases hcap : s.len + xs.length ≤ s.cap
  · rw [if_pos hcap]
    have hw : s.off + s.len + xs.length ≤ (h.getD s.arr []).length := by omega
    have hget : (h.set s.arr (writeAt (h.getD s.arr []) (s.off + s.len) xs)).getD s.arr [] =
        writeAt (h.getD s.arr []) (s.off + s.len) xs := by
      rw [List.getD_eq_getElem?_getD, List.getElem?_set_self (by omega)]
      rfl
    refine ⟨⟨by simpa using h1, hcap, ?_⟩, ?_, by simp, Or.inl rfl, ?_⟩
    · show s.off + s.cap ≤ ((h.set s.arr _).getD s.arr []).length
      rw [hget, writeAt_eq xs _ _ hw]
      simp only [List.length_append, List.length_take, List.length_drop]
      omega
    · show ((((h.set s.arr _).getD s.arr [])).drop s.off).take (s.len + xs.length) = _
      rw [hget, writeAt_eq xs _ _ hw, List.append_assoc,
        List.drop_append_of_le_length (by rw [List.length_take]; omega), List.drop_take]
      have e : s.off + s.len - s.off = s.len := by omega
      rw [e, ← List.append_assoc]
      have hl : (List.take s.len (List.drop s.off (h.getD s.arr [])) ++ xs).length
          = s.len + xs.length := by
        rw [List.length_append]
        unfold elems at hlenE
        rw [hlenE]
      rw [List.take_left' hl]
      rfl
    · intro k _ hk
      show (h.set s.arr _).getD k [] = h.getD k []
      simp only [List.getD_eq_getElem?_getD, List.getElem?_set_ne (fun e => hk e.symm)]
  · rw [if_neg hcap]
    have hnew : ∀ row : List String, (h ++ [row]).getD h.length [] = row := by
      intro row
      rw [List.getD_eq_getElem?_getD, List.getElem?_append_right (le_refl _)]
      simp
    refine ⟨⟨by simp, le_max_left _ _, ?_⟩, ?_, by simp, Or.inr rfl, ?_⟩
    · show 0 + max _ _ ≤ ((h ++ [_]).getD h.length []).length
      rw [hnew]
      simp only [List.length_append, List.length_replicate, hlenE]
      omega
    · show (((h ++ [_]).getD h.length []).drop 0).take (s.len + xs.length) = _
      rw [hnew, List.drop_zero]
      exact List.take_left' (by rw [List.length_append, hlenE])
    · intro k hk _
      show (h ++ [_]).getD k [] = h.getD k []
      rw [List.getD_eq_getElem?_getD, List.getD_eq_getElem?_getD,
        List.getElem?_append_left hk]

theorem emptySlice_spec (h : Heap) :
    ValidSlice (emptySlice h).1 (emptySlice h).2 ∧ elems (emptySlice h).1 (emptySlice h).2 = [] ∧
      (emptySlice h).1.length = h.length + 1 ∧ (emptySlice h).2.arr = h.length ∧
      ∀ k, k < h.length → (emptySlice h).1.getD k [] = h.getD k [] := by
  unfold emptySlice
  refine ⟨⟨by simp, le_refl _, by simp⟩, by simp [elems], by simp, rfl, ?_⟩
  intro k hk
  show (h ++ [[]]).getD k [] = h.getD k []
  rw [List.getD_eq_getElem?_getD, List.getD_eq_getElem?_getD, List.getElem?_append_left hk]

/-- Two `append`s onto a fresh empty slice: the result holds `ys` after the elements `xs`, and
every backing array of the original heap is unchanged. -/
theorem buildArgs_spec (grow : Nat → Nat) (h : Heap) (xs ys : List String) :
    elems (sliceAppend grow (sliceAppend grow (emptySlice h).1 (emptySlice h).2 xs).1
        (sliceAppend grow (emptySlice h).1 (emptySlice h).2 xs).2 ys).1
      (sliceAppend grow (sliceAppend grow (emptySlice h).1 (emptySlice h).2 xs).1
        (sliceAppend grow (emptySlice h).1 (emptySlice h).2 xs).2 ys).2 = xs ++ ys ∧
    ∀ k, k < h.length →
      (sliceAppend grow (sliceAppend grow (emptySlice h).1 (emptySlice h).2 xs).1
        (sliceAppend grow (emptySlice h).1 (emptySlice h).2 xs).2 ys).1.getD k [] = h.getD k [] := by
  obtain ⟨hv0, he0, hl0, ha0, hf0⟩ := emptySlice_spec h
  obtain ⟨hv1, he1, hl1, ha1, hf1⟩ :=
    sliceAppend_spec grow (emptySlice h).1 (emptySlice h).2 xs hv0
  obtain ⟨_, he2, _, _, hf2⟩ :=
    sliceAppend_spec grow _ _ ys hv1
  refine ⟨by rw [he2, he1, he0, List.nil_append], ?_⟩
  intro k hk
  rw [hf2 k (by omega) (by omega), hf1 k (by omega) (by omega), hf0 k hk]

theorem elems_frame {h h2 : Heap} (s : Slice) (hs : s.arr < h.length ∨ s.len = 0)
    (hf : ∀ k, k < h.length → h2.getD k [] = h.getD k []) : elems h2 s = elems h s := by
  unfold elems
  rcases hs with hs | hs
  · rw [hf s.arr hs]
  · rw [hs, List.take_zero, List.take_zero]


/-- C14: for every candidate, `programFile` and `inputFile` (and every growth policy of
`append`), the argument list `Run` passes to the external process is exactly the candidate's
`Args`, in order, followed by `"-f"`, `programFile`, `inputFile`; for `RunInline` it is `Args`
followed by `program`, `inputFile`. The candidate's own `Args` are left unchanged: every backing
array that existed before the call is untouched, so `awk.Args` still has the same elements. -/
theorem runArgs_spec (grow : Nat → Nat) (h : Heap) (awkArgs : Slice)
    (programFile program inputFile : String) (hargs : awkArgs.arr < h.length ∨ awkArgs.len = 0) :
    (elems (runArgs grow h awkArgs programFile inputFile).1
        (runArgs grow h awkArgs programFile inputFile).2
        = elems h awkArgs ++ ["-f", programFile, inputFile] ∧
      elems (runArgs grow h awkArgs programFile inputFile).1 awkArgs = elems h awkArgs ∧
      ∀ k, k < h.length →
        (runArgs grow h awkArgs programFile inputFile).1.getD k [] = h.getD k []) ∧
    (elems (runInlineArgs grow h awkArgs program inputFile).1
        (runInlineArgs grow h awkArgs program inputFile).2
        = elems h awkArgs ++ [program, inputFile] ∧
      elems (runInlineArgs grow h awkArgs program inputFile).1 awkArgs = elems h awkArgs ∧
      ∀ k, k < h.length →
        (runInlineArgs grow h awkArgs program inputFile).1.getD k [] = h.getD k []) := by
  have hread : elems (emptySlice h).1 awkArgs = elems h awkArgs :=
    elems_frame awkArgs hargs (emptySlice_spec h).2.2.2.2
  constructor
  · obtain ⟨h1, h2⟩ := buildArgs_spec grow h (elems (emptySlice h).1 awkArgs)
      ["-f", programFile, inputFile]
    exact ⟨h1.trans (by rw [hread]), elems_frame awkArgs hargs h2, h2⟩
  · obtain ⟨h1, h2⟩ := buildArgs_spec grow h (elems (emptySlice h).1 awkArgs)
      [program, inputFile]
    exact ⟨h1.trans (by rw [hread]), elems_frame awkArgs hargs h2, h2⟩

/-- C14 (witness): `gawk` with `Args = ["-b"]`, the slice filling its backing array, and an
`append` that doubles the capacity. -/
theorem runArgs_spec_witness :
    ((0 : Nat) < ([["-b"]] : Heap).length ∨ (1 : Nat) = 0) ∧
    elems [["-b"]] { arr := 0, off := 0, len := 1, cap := 1 } = ["-b"] ∧
    elems (runArgs (fun n => 2 * n) [["-b"]] { arr := 0, off := 0, len := 1, cap := 1 }
        "sum.awk" "numeric.txt").1
      (runArgs (fun n => 2 * n) [["-b"]] { arr := 0, off := 0, len := 1, cap := 1 }
        "sum.awk" "numeric.txt").2 = ["-b", "-f", "sum.awk", "numeric.txt"] ∧
    elems (runInlineArgs (fun n => 2 * n) [["-b"]] { arr := 0, off := 0, len := 1, cap := 1 }
        "NR > 1" "numeric.txt").1
      (runInlineArgs (fun n => 2 * n) [["-b"]] { arr := 0, off := 0, len := 1, cap := 1 }
        "NR > 1" "numeric.txt").2 = ["-b", "NR > 1", "numeric.txt"] ∧
    elems (runArgs (fun n => 2 * n) [["-b"]] { arr := 0, off := 0, len := 1, cap := 1 }
        "sum.awk" "numeric.txt").1 { arr := 0, off := 0, len := 1, cap := 1 } = ["-b"] :=
  ⟨Or.inl (by decide), by decide,
    (runArgs_spec (fun n => 2 * n) [["-b"]] { arr := 0, off := 0, len := 1, cap := 1 }
      "sum.awk" "NR > 1" "numeric.txt" (Or.inl (by decide))).1.1,
    (runArgs_spec (fun n => 2 * n) [["-b"]] { arr := 0, off := 0, len := 1, cap := 1 }
      "sum.awk" "NR > 1" "numeric.txt" (Or.inl (by decide))).2.1,
    (runArgs_spec (fun n => 2 * n) [["-b"]] { arr := 0, off := 0, len := 1, cap := 1 }
      "sum.awk" "NR > 1" "numeric.txt" (Or.inl (by decide))).1.2.1⟩


/-! ## `WriteSummary`: grouping and scores -/

theorem groupInsert_ne_nil (m : List (String × List Int)) (k : String) (v : Int) :
    groupInsert m k v ≠ [] := by
  cases m with
  | nil => simp [groupInsert]
  | cons e m =>
    obtain ⟨k2, vs⟩ := e
    unfold groupInsert
    split_ifs <;> simp

theorem groupInsert_forall (Q : Int → Prop) (k : String) (v : Int) (hv : Q v) :
    ∀ m : List (String × List Int), (∀ e ∈ m, ∀ d ∈ e.2, Q d) →
      ∀ e ∈ groupInsert m k v, ∀ d ∈ e.2, Q d := by
  intro m
  induction m with
  | nil =>
    intro _ e he d hd
    simp only [groupInsert, List.mem_singleton] at he
    subst he
    simp only [List.mem_singleton] at hd
    subst hd
    exact hv
  | cons e0 m ih =>
    obtain ⟨k2, vs⟩ := e0
    intro hm e he d hd
    unfold groupInsert at he
    split_ifs at he with hk
    · rcases List.mem_cons.mp he with rfl | he
      · rcases List.mem_append.mp hd with hd | hd
        · exact hm (k2, vs) (List.mem_cons_self _ _) d hd
        · simp only [List.mem_singleton] at hd
          subst hd
          exact hv
      · exact hm e (List.mem_cons_of_mem _ he) d hd
    · rcases List.mem_cons.mp he with rfl | he
      · exact hm (k2, vs) (List.mem_cons_self _ _) d hd
      · exact ih (fun e2 he2 => hm e2 (List.mem_cons_of_mem _ he2)) e he d hd

theorem foldl_groupInsert_ne_nil (results : List BenchmarkResult) :
    ∀ m : List (String × List Int), m ≠ [] →
      results.foldl (fun m r => groupInsert m r.AWK r.Mean) m ≠ [] := by
  induction results with
  | nil =>
    intro m hm
    exact hm
  | cons r t ih =>
    intro m _
    exact ih _ (groupInsert_ne_nil m r.AWK r.Mean)

theorem groupByAWK_ne_nil {results : List BenchmarkResult} (h : results ≠ []) :
    groupByAWK results ≠ [] := by
  cases results with
  | nil => exact absurd rfl h
  | cons r t => exact foldl_groupInsert_ne_nil t _ (groupInsert_ne_nil [] r.AWK r.Mean)

theorem foldl_groupInsert_forall (Q : Int → Prop) (results : List BenchmarkResult)
    (hq : ∀ r ∈ results, Q r.Mean) :
    ∀ m : List (String × List Int), (∀ e ∈ m, ∀ d ∈ e.2, Q d) →
      ∀ e ∈ results.foldl (fun m r => groupInsert m r.AWK r.Mean) m, ∀ d ∈ e.2, Q d := by
  induction results with
  | nil =>
    intro m hm
    exact hm
  | cons r t ih =>
    intro m hm
    exact ih (fun r2 hr2 => hq r2 (List.mem_cons_of_mem _ hr2)) _
      (groupInsert_forall Q r.AWK r.Mean (hq r (List.mem_cons_self _ _)) m hm)

theorem groupByAWK_forall (Q : Int → Prop) (results : List BenchmarkResult)
    (hq : ∀ r ∈ results, Q r.Mean) : ∀ e ∈ groupByAWK results, ∀ d ∈ e.2, Q d :=
  foldl_groupInsert_forall Q results hq [] (fun e he => absurd he (List.not_mem_nil e))

theorem foldl_fmul_inf (ds : List Int) (hpos : ∀ d ∈ ds, 0 < d) :
    ds.foldl (fun (p : Float64) (d : Int) => fmul p (d : ℚ)) Float64.inf = Float64.inf := by
  induction ds with
  | nil => rfl
  | cons d t ih =>
    have hd : ((d : Int) : ℚ) ≠ 0 := by
      have := hpos d (List.mem_cons_self _ _)
      exact_mod_cast (ne_of_gt this)
    rw [List.foldl_cons]
    have hstep : fmul Float64.inf (d : ℚ) = Float64.inf := by simp [fmul, hd]
    rw [hstep]
    exact ih fun d2 hd2 => hpos d2 (List.mem_cons_of_mem _ hd2)

theorem foldl_fmul_pos (ds : List Int) (hpos : ∀ d ∈ ds, 0 < d) :
    ∀ p : ℚ, 0 < p →
      ds.foldl (fun (p : Float64) (d : Int) => fmul p (d : ℚ)) (Float64.fin p) = Float64.inf ∨
        ∃ q : ℚ, 0 < q ∧ ds.foldl (fun (p : Float64) (d : Int) => fmul p (d : ℚ)) (Float64.fin p) = Float64.fin q := by
  induction ds with
  | nil =>
    intro p hp
    exact Or.inr ⟨p, hp, rfl⟩
  | cons d t ih =>
    intro p hp
    have hd : (0 : ℚ) < d := by exact_mod_cast hpos d (List.mem_cons_self _ _)
    have ht : ∀ d2 ∈ t, 0 < d2 := fun d2 hd2 => hpos d2 (List.mem_cons_of_mem _ hd2)
    rw [List.foldl_cons]
    by_cases hov : MaxFloat64 < |p * (d : ℚ)|
    · have hstep : fmul (Float64.fin p) (d : ℚ) = Float64.inf := by simp [fmul, hov]
      rw [hstep]
      exact Or.inl (foldl_fmul_inf t ht)
    · have hstep : fmul (Float64.fin p) (d : ℚ) = Float64.fin (p * d) := by simp [fmul, hov]
      rw [hstep]
      exact ih ht _ (mul_pos hp hd)

/-- The running product of positive durations is an infinity or a positive finite value. -/
theorem product_pos {ds : List Int} (hpos : ∀ d ∈ ds, 0 < d) :
    product ds = Float64.inf ∨ ∃ q : ℚ, 0 < q ∧ product ds = Float64.fin q :=
  foldl_fmul_pos ds hpos 1 one_pos

theorem toInt_nonneg {f : ℚ} (hf : 0 ≤ f) : 0 ≤ toInt f :=
  Int.tdiv_nonneg (Rat.num_nonneg.mpr hf) (Int.ofNat_nonneg _)

/-- The row loop on finite scores that are all at least the positive finite baseline `b`: it
ends normally and writes one row per score, in order, numbered from `i + 1`, with ratio
`score / b`. -/
theorem emitRows_ok {b : ℚ} (hb : 0 < b) :
    ∀ (l : List awkScore) (i : Nat),
      (∀ s ∈ l, s.score = Float64.fin (finValue s.score) ∧ b ≤ finValue s.score) →
      (emitRows (Float64.fin b) i l).2 = Exit.ok ∧
        (emitRows (Float64.fin b) i l).1.map (fun row => row.name) = l.map (fun s => s.name) ∧
        (emitRows (Float64.fin b) i l).1.map (fun row => row.ratio) =
          l.map (fun s => Float64.fin (finValue s.score / b)) ∧
        (emitRows (Float64.fin b) i l).1.map (fun row => row.rank) =
          (List.range' (i + 1) l.length).map (fun k : Nat => (k : Int)) := by
  intro l
  induction l with
  | nil =>
    intro i _
    simp [emitRows]
  | cons s rest ih =>
    intro i hl
    obtain ⟨hfin, hs⟩ := hl s (List.mem_cons_self _ _)
    obtain ⟨h1, h2, h3, h4⟩ := ih (i + 1) fun s2 hs2 => hl s2 (List.mem_cons_of_mem _ hs2)
    have hq : 1 ≤ finValue s.score / b := (one_le_div hb).mpr hs
    have hfd : fdiv s.score (Float64.fin b) = Float64.fin (finValue s.score / b) := by
      rw [hfin]
      simp [fdiv, finValue, ne_of_gt hb]
    have hbar : barCount (Float64.fin (finValue s.score / b))
        = some (toInt (10 / (finValue s.score / b))) := by
      have hne : finValue s.score / b ≠ 0 := by
        intro h0
        rw [h0] at hq
        norm_num at hq
      simp only [barCount, hne, if_false]
    have hcount : ¬ toInt (10 / (finValue s.score / b)) < 0 :=
      not_lt.mpr (toInt_nonneg (by positivity))
    unfold emitRows
    rw [hfd, hbar]
    simp only [hcount, if_false, List.map_cons, List.length_cons, List.range'_succ, h1, h2, h3,
      h4]
    simp

/-- With positive `Mean`s and no overflow of a running product, every candidate's score is a
positive finite value. -/
theorem geoScore_pos (lib : GoLib) (hlib : Lawful lib) {results : List BenchmarkResult}
    (hpos : ∀ r ∈ results, 0 < r.Mean)
    (hfin : ∀ e ∈ groupByAWK results, product e.2 ≠ Float64.inf) :
    ∀ s ∈ (groupByAWK results).map (geoScore lib),
      s.score = Float64.fin (finValue s.score) ∧ 0 < finValue s.score := by
  intro s hs
  obtain ⟨e, he, rfl⟩ := List.mem_map.mp hs
  rcases product_pos (groupByAWK_forall (fun d => 0 < d) results hpos e he) with hinf | ⟨q, hq, hp⟩
  · exact absurd hinf (hfin e he)
  · obtain ⟨r, hr, hpow⟩ := hlib.1 q (1 / (e.2.length : ℚ)) hq
    have hscore : (geoScore lib e).score = Float64.fin r := by
      show lib.pow (product e.2) _ = _
      rw [hp, hpow]
    rw [hscore]
    exact ⟨rfl, hr⟩

theorem sortKey_fin {x : Float64} (h : ∃ q, x = Float64.fin q) : sortKey x = finValue x := by
  obtain ⟨q, rfl⟩ := h
  rfl

theorem sampleLib_lawful : Lawful sampleLib := by
  haveI : IsTotal awkScore (fun a b => sortKey a.score ≤ sortKey b.score) :=
    ⟨fun a b => le_total _ _⟩
  haveI : IsTrans awkScore (fun a b => sortKey a.score ≤ sortKey b.score) :=
    ⟨fun _ _ _ => le_trans⟩
  refine ⟨?_, fun m => List.Perm.refl m, fun l => List.perm_insertionSort _ l, ?_⟩
  · intro x y hx
    show ∃ r : ℚ, 0 < r ∧ samplePow (Float64.fin x) y = Float64.fin r
    by_cases hy : y = 1
    · exact ⟨x, hx, by simp [samplePow, hy]⟩
    · exact ⟨1, one_pos, by simp [samplePow, hy]⟩
  · intro l hl
    have hsorted := List.sorted_insertionSort (fun a b : awkScore => sortKey a.score ≤ sortKey b.score) l
    have hmem : ∀ s ∈ l.insertionSort (fun a b : awkScore => sortKey a.score ≤ sortKey b.score),
        ∃ q, s.score = Float64.fin q :=
      fun s hs => hl s ((List.perm_insertionSort _ l).subset hs)
    exact List.Pairwise.imp_of_mem
      (fun {a b} ha hb hab => by
        rw [← sortKey_fin (hmem a ha), ← sortKey_fin (hmem b hb)]
        exact hab) hsorted

theorem reversedLib_lawful : Lawful reversedLib :=
  ⟨sampleLib_lawful.1, fun m => List.reverse_perm m, sampleLib_lawful.2.2.1,
    sampleLib_lawful.2.2.2⟩


/-! ## `WriteSummary`: the ranking -/

/-- C11 (amended): the ranking computed by `WriteSummary` orders candidates fastest first and
normalises against the fastest, as long as no running product overflows. For every library
behaving as promised and every non-empty result set with positive `Mean`s in which no
candidate's running product of `Mean`s overflows to an infinity: the rows follow a list `scores`
that is a rearrangement of the candidates' geometric-mean scores, all finite, in non-decreasing
order; its first score `s0` is positive and the smallest; the call ends normally; row `k` carries
rank `k`, the name of the `k`-th score and the ratio `score / s0`; the first row's ratio is
exactly `1`; every row's ratio is at least `1`. -/
theorem WriteSummary_ranking (lib : GoLib) (results : List BenchmarkResult) (hlib : Lawful lib)
    (hne : results ≠ []) (hpos : ∀ r ∈ results, 0 < r.Mean)
    (hfin : ∀ e ∈ groupByAWK results, product e.2 ≠ Float64.inf) :
    ∃ (scores : List awkScore) (s0 : awkScore),
      scores.Perm ((groupByAWK results).map (geoScore lib)) ∧
      (∀ s ∈ scores, s.score = Float64.fin (finValue s.score)) ∧
      scores.Sorted (fun a b => finValue a.score ≤ finValue b.score) ∧
      scores.head? = some s0 ∧ 0 < finValue s0.score ∧
      (∀ s ∈ scores, finValue s0.score ≤ finValue s.score) ∧
      (WriteSummary lib results).2 = Exit.ok ∧
      (WriteSummary lib results).1.map (fun row => row.name) = scores.map (fun s => s.name) ∧
      (WriteSummary lib results).1.map (fun row => row.ratio) =
        scores.map (fun s => Float64.fin (finValue s.score / finValue s0.score)) ∧
      (WriteSummary lib results).1.map (fun row => row.rank) =
        (List.range' 1 scores.length).map (fun k : Nat => (k : Int)) ∧
      (WriteSummary lib results).1.head?.map (fun row => row.ratio) = some (Float64.fin 1) ∧
      ∀ row ∈ (WriteSummary lib results).1, ∃ q, row.ratio = Float64.fin q ∧ 1 ≤ q := by
  have hallpos := geoScore_pos lib hlib hpos hfin
  obtain ⟨_, hrange, hsortp, hsorted⟩ := hlib
  have hperm : (lib.sortSlice ((lib.rangeMap (groupByAWK results)).map (geoScore lib))).Perm
      ((groupByAWK results).map (geoScore lib)) :=
    (hsortp _).trans ((hrange _).map _)
  have hsort := hsorted ((lib.rangeMap (groupByAWK results)).map (geoScore lib))
    fun s hs => ⟨_, (hallpos s (((hrange _).map _).subset hs)).1⟩
  have hW : WriteSummary lib results =
      match lib.sortSlice ((lib.rangeMap (groupByAWK results)).map (geoScore lib)) with
      | [] => ([], Exit.panic)
      | s0 :: rest => emitRows s0.score 0 (s0 :: rest) := by
    have hlen : results.length ≠ 0 := fun h0 => hne (List.length_eq_zero.mp h0)
    simp [WriteSummary, hlen]
  cases hsc : lib.sortSlice ((lib.rangeMap (groupByAWK results)).map (geoScore lib)) with
  | nil =>
    rw [hsc] at hperm
    have : (groupByAWK results).map (geoScore lib) = [] := List.Perm.nil_eq hperm |>.symm
    exact absurd (List.map_eq_nil_iff.mp this) (groupByAWK_ne_nil hne)
  | cons s0 rest =>
    rw [hsc] at hperm hsort hW
    have hfinite : ∀ s ∈ s0 :: rest, s.score = Float64.fin (finValue s.score) :=
      fun s hs => (hallpos s (hperm.subset hs)).1
    have hs0pos : 0 < finValue s0.score :=
      (hallpos s0 (hperm.subset (List.mem_cons_self _ _))).2
    have hmin : ∀ s ∈ s0 :: rest, finValue s0.score ≤ finValue s.score := by
      intro s hs
      rcases List.mem_cons.mp hs with rfl | hs
      · exact le_refl _
      · exact (List.pairwise_cons.mp hsort).1 s hs
    have hbase : s0.score = Float64.fin (finValue s0.score) :=
      hfinite s0 (List.mem_cons_self _ _)
    obtain ⟨h1, h2, h3, h4⟩ := emitRows_ok hs0pos (s0 :: rest) 0
      fun s hs => ⟨hfinite s hs, hmin s hs⟩
    have hW2 : WriteSummary lib results = emitRows (Float64.fin (finValue s0.score)) 0 (s0 :: rest) := by
      rw [hW]
      show emitRows s0.score 0 (s0 :: rest) = _
      rw [← hbase]
    rw [hW2]
    refine ⟨s0 :: rest, s0, hperm, hfinite, hsort, rfl, hs0pos, hmin, h1, h2, h3, h4, ?_, ?_⟩
    · rw [← List.head?_map, h3, List.map_cons, List.head?_cons, div_self (ne_of_gt hs0pos)]
    · intro row hrow
      have hmem : row.ratio ∈
          (emitRows (Float64.fin (finValue s0.score)) 0 (s0 :: rest)).1.map (fun row => row.ratio) :=
        List.mem_map_of_mem _ hrow
      rw [h3] at hmem
      obtain ⟨s, hs, hrs⟩ := List.mem_map.mp hmem
      exact ⟨_, hrs.symm, (one_le_div hs0pos).mpr (hmin s hs)⟩


/-- C11 (witness): candidate `A` with geometric mean `100ms` and candidate `B` with `150ms`,
`B` reported first: `A` is ranked first with ratio `1`, `B` second with ratio `1.5`. -/
theorem WriteSummary_ranking_witness :
    (Lawful sampleLib ∧
      [sampleResult "B" "sum.awk" 150000000, sampleResult "A" "sum.awk" 100000000] ≠ [] ∧
      (∀ r ∈ [sampleResult "B" "sum.awk" 150000000, sampleResult "A" "sum.awk" 100000000],
        0 < r.Mean) ∧
      ∀ e ∈ groupByAWK
          [sampleResult "B" "sum.awk" 150000000, sampleResult "A" "sum.awk" 100000000],
        product e.2 ≠ Float64.inf) ∧
    WriteSummary sampleLib
        [sampleResult "B" "sum.awk" 150000000, sampleResult "A" "sum.awk" 100000000] =
      ([{ rank := 1, name := "A", ratio := Float64.fin 1, bar := 10 },
        { rank := 2, name := "B", ratio := Float64.fin (3 / 2), bar := 6 }], Exit.ok) ∧
    ∃ (scores : List awkScore) (s0 : awkScore),
      scores.Perm ((groupByAWK
        [sampleResult "B" "sum.awk" 150000000, sampleResult "A" "sum.awk" 100000000]).map
          (geoScore sampleLib)) ∧
      (∀ s ∈ scores, s.score = Float64.fin (finValue s.score)) ∧
      scores.Sorted (fun a b => finValue a.score ≤ finValue b.score) ∧
      scores.head? = some s0 ∧ 0 < finValue s0.score ∧
      (∀ s ∈ scores, finValue s0.score ≤ finValue s.score) := by
  have hpos : ∀ r ∈ [sampleResult "B" "sum.awk" 150000000, sampleResult "A" "sum.awk" 100000000],
      0 < r.Mean := by decide
  have hfin : ∀ e ∈ groupByAWK
      [sampleResult "B" "sum.awk" 150000000, sampleResult "A" "sum.awk" 100000000],
      product e.2 ≠ Float64.inf := by
    simp [groupByAWK, groupInsert, sampleResult, product, fmul, MaxFloat64]
    norm_num
  obtain ⟨scores, s0, h1, h2, h3, h4, h5, h6, _⟩ := WriteSummary_ranking sampleLib
    [sampleResult "B" "sum.awk" 150000000, sampleResult "A" "sum.awk" 100000000]
    sampleLib_lawful (by decide) hpos hfin
  refine ⟨⟨sampleLib_lawful, by decide, hpos, hfin⟩, ?_, scores, s0, h1, h2, h3, h4, h5, h6⟩
  have h20 : Int.tdiv 20 3 = 6 := by decide
  simp [WriteSummary, sampleLib, sampleResult, groupByAWK, groupInsert, geoScore, product,
    fmul, MaxFloat64, samplePow, sortKey, emitRows, fdiv, barCount, toInt]
  norm_num [emitRows, fdiv, barCount, toInt, h20]

theorem foldl_groupInsert_same (a : String) (t : List BenchmarkResult)
    (hname : ∀ r ∈ t, r.AWK = a) :
    ∀ vs : List Int, t.foldl (fun m r => groupInsert m r.AWK r.Mean) [(a, vs)] =
      [(a, vs ++ t.map fun r => r.Mean)] := by
  induction t with
  | nil =>
    intro vs
    simp
  | cons r t ih =>
    intro vs
    have hr : r.AWK = a := hname r (List.mem_cons_self _ _)
    rw [List.foldl_cons, hr]
    have hstep : groupInsert [(a, vs)] a r.Mean = [(a, vs ++ [r.Mean])] := by
      simp [groupInsert]
    rw [hstep, ih (fun r2 hr2 => hname r2 (List.mem_cons_of_mem _ hr2))]
    simp

theorem groupByAWK_same (a : String) {results : List BenchmarkResult} (hne : results ≠ [])
    (hname : ∀ r ∈ results, r.AWK = a) :
    groupByAWK results = [(a, results.map fun r => r.Mean)] := by
  cases results with
  | nil => exact absurd rfl hne
  | cons r t =>
    have hr : r.AWK = a := hname r (List.mem_cons_self _ _)
    unfold groupByAWK
    rw [List.foldl_cons, hr]
    have hstep : groupInsert [] a r.Mean = [(a, [r.Mean])] := rfl
    rw [hstep, foldl_groupInsert_same a t (fun r2 hr2 => hname r2 (List.mem_cons_of_mem _ hr2))]
    simp


theorem longSuite_spec :
    longSuite ≠ [] ∧ (∀ r ∈ longSuite, r.AWK = "gawk") ∧
      (∀ r ∈ longSuite, r.Mean = 1000000000) ∧
      (longSuite.map fun r => r.Mean) = List.replicate 35 1000000000 := by
  refine ⟨by simp [longSuite], ?_, ?_,
    by simp [longSuite, sampleResult, List.range, List.range.loop]⟩
  · intro r hr
    obtain ⟨k, _, rfl⟩ := List.mem_map.mp hr
    rfl
  · intro r hr
    obtain ⟨k, _, rfl⟩ := List.mem_map.mp hr
    rfl

/-- C11 (counterexample): one candidate benchmarked on 35 programs with a mean of one second
each. All `Mean`s are positive, yet the running product `10^315` exceeds `MaxFloat64` and
overflows to an infinity, the geometric mean is an infinity, the ratio of the only entry is
`Inf / Inf`, not a number, and the row loop stops at the conversion `int(10/ratio)`: the first
entry's ratio is not `1`. -/
theorem WriteSummary_ranking_counterexample :
    Lawful sampleLib ∧ longSuite ≠ [] ∧ (∀ r ∈ longSuite, 0 < r.Mean) ∧
    groupByAWK longSuite = [("gawk", List.replicate 35 1000000000)] ∧
    product (List.replicate 35 1000000000) = Float64.inf ∧
    fdiv Float64.inf Float64.inf = Float64.nan ∧
    WriteSummary sampleLib longSuite = ([], Exit.unspecified) ∧
    (WriteSummary sampleLib longSuite).1.head?.map (fun row => row.ratio)
      ≠ some (Float64.fin 1) := by
  obtain ⟨hne, hname, hmean, hmap⟩ := longSuite_spec
  have hgroup : groupByAWK longSuite = [("gawk", List.replicate 35 1000000000)] := by
    rw [groupByAWK_same "gawk" hne hname, hmap]
  have hprod : product (List.replicate 35 1000000000) = Float64.inf := by
    simp only [product, List.replicate, List.foldl_cons, List.foldl_nil]
    norm_num [fmul, MaxFloat64]
  have hlen : longSuite.length ≠ 0 := fun h0 => hne (List.length_eq_zero.mp h0)
  have hscore : geoScore sampleLib ("gawk", List.replicate 35 1000000000) =
      { name := "gawk", score := Float64.inf } := by
    show ({ name := "gawk", score := samplePow (product _) _ } : awkScore) = _
    rw [hprod]
    rfl
  have hsorted : sampleLib.sortSlice
      ((sampleLib.rangeMap (groupByAWK longSuite)).map (geoScore sampleLib)) =
        [{ name := "gawk", score := Float64.inf }] := by
    rw [hgroup]
    show List.insertionSort (fun a b : awkScore => sortKey a.score ≤ sortKey b.score)
      [geoScore sampleLib ("gawk", List.replicate 35 1000000000)] = _
    rw [hscore]
    rfl
  have hW : WriteSummary sampleLib longSuite = ([], Exit.unspecified) := by
    simp only [WriteSummary, hlen, if_false, hsorted]
    simp [emitRows, fdiv, barCount]
  refine ⟨sampleLib_lawful, hne, ?_, hgroup, hprod, rfl, hW, ?_⟩
  · intro r hr
    rw [hmean r hr]
    decide
  · rw [hW]
    simp

/-- C12 (code at the failing input): `gawk` and `mawk` with the same geometric mean `100ms`.
Both libraries behave as promised and differ only in the order in which the map is enumerated,
yet `WriteSummary` ranks `gawk` first with one and `mawk` first with the other; with the
enumeration fixed, reordering the input results also swaps the two rows. -/
theorem WriteSummary_tie_order :
    Lawful sampleLib ∧ Lawful reversedLib ∧
    (WriteSummary sampleLib
        [sampleResult "gawk" "sum.awk" 100000000, sampleResult "mawk" "sum.awk" 100000000]).1.map
      (fun row => row.name) = ["gawk", "mawk"] ∧
    (WriteSummary reversedLib
        [sampleResult "gawk" "sum.awk" 100000000, sampleResult "mawk" "sum.awk" 100000000]).1.map
      (fun row => row.name) = ["mawk", "gawk"] ∧
    (WriteSummary sampleLib
        [sampleResult "mawk" "sum.awk" 100000000, sampleResult "gawk" "sum.awk" 100000000]).1.map
      (fun row => row.name) = ["mawk", "gawk"] := by
  refine ⟨sampleLib_lawful, reversedLib_lawful, ?_, ?_, ?_⟩
  · simp [WriteSummary, sampleLib, sampleResult, groupByAWK, groupInsert, geoScore, product,
      fmul, MaxFloat64, samplePow, sortKey, emitRows, fdiv, barCount, toInt]
    norm_num [emitRows, fdiv, barCount, toInt]
  · simp [WriteSummary, reversedLib, sampleLib, sampleResult, groupByAWK, groupInsert, geoScore,
      product, fmul, MaxFloat64, samplePow, sortKey, emitRows, fdiv, barCount, toInt]
    norm_num [emitRows, fdiv, barCount, toInt]
  · simp [WriteSummary, sampleLib, sampleResult, groupByAWK, groupInsert, geoScore, product,
      fmul, MaxFloat64, samplePow, sortKey, emitRows, fdiv, barCount, toInt]
    norm_num [emitRows, fdiv, barCount, toInt]


/-- C13 (amended): for every library behaving as promised and every non-empty result set in
which all results carry the same candidate name `a` (any number of programs), every `Mean` is
positive and the running product of the `Mean`s does not overflow to an infinity,
`WriteSummary` writes exactly one row, for `a`, with rank `1` and ratio exactly `1`. -/
theorem WriteSummary_single (lib : GoLib) (results : List BenchmarkResult) (a : String)
    (hlib : Lawful lib) (hne : results ≠ []) (hname : ∀ r ∈ results, r.AWK = a)
    (hpos : ∀ r ∈ results, 0 < r.Mean)
    (hfin : product (results.map fun r => r.Mean) ≠ Float64.inf) :
    WriteSummary lib results =
      ([{ rank := 1, name := a, ratio := Float64.fin 1, bar := 10 }], Exit.ok) := by
  have hgroup := groupByAWK_same a hne hname
  have hmeans : ∀ d ∈ results.map (fun r => r.Mean), 0 < d := by
    intro d hd
    obtain ⟨r, hr, rfl⟩ := List.mem_map.mp hd
    exact hpos r hr
  obtain ⟨q, hq, hprod⟩ : ∃ q : ℚ, 0 < q ∧ product (results.map fun r => r.Mean) = Float64.fin q := by
    rcases product_pos hmeans with hinf | h
    · exact absurd hinf hfin
    · exact h
  obtain ⟨hpow, hrange, hsortp, _⟩ := hlib
  obtain ⟨v, hv, hpv⟩ := hpow q (1 / ((results.map fun r => r.Mean).length : ℚ)) hq
  have hscore : geoScore lib (a, results.map fun r => r.Mean) =
      { name := a, score := Float64.fin v } := by
    show ({ name := a, score := lib.pow (product _) _ } : awkScore) = _
    rw [hprod, hpv]
  have h1 : lib.rangeMap (groupByAWK results) = [(a, results.map fun r => r.Mean)] := by
    have := hrange (groupByAWK results)
    rw [hgroup] at this ⊢
    exact List.perm_singleton.mp this
  have h2 : lib.sortSlice [({ name := a, score := Float64.fin v } : awkScore)] =
      [{ name := a, score := Float64.fin v }] :=
    List.perm_singleton.mp (hsortp _)
  have hlen : results.length ≠ 0 := fun h0 => hne (List.length_eq_zero.mp h0)
  have hten : toInt 10 = 10 := by
    unfold toInt
    norm_num
  simp only [WriteSummary, hlen, if_false, h1, List.map_cons, List.map_nil, hscore, h2]
  simp [emitRows, fdiv, barCount, ne_of_gt hv, hten]

/-- C13 (witness): one candidate benchmarked on two programs. -/
theorem WriteSummary_single_witness :
    (Lawful sampleLib ∧
      [sampleResult "uawk" "sum.awk" 100000000, sampleResult "uawk" "count.awk" 400000000] ≠ [] ∧
      (∀ r ∈ [sampleResult "uawk" "sum.awk" 100000000,
        sampleResult "uawk" "count.awk" 400000000], r.AWK = "uawk") ∧
      (∀ r ∈ [sampleResult "uawk" "sum.awk" 100000000,
        sampleResult "uawk" "count.awk" 400000000], 0 < r.Mean) ∧
      product ([sampleResult "uawk" "sum.awk" 100000000,
        sampleResult "uawk" "count.awk" 400000000].map fun r => r.Mean) ≠ Float64.inf) ∧
    WriteSummary sampleLib
        [sampleResult "uawk" "sum.awk" 100000000, sampleResult "uawk" "count.awk" 400000000] =
      ([{ rank := 1, name := "uawk", ratio := Float64.fin 1, bar := 10 }], Exit.ok) := by
  have hfin : product ([sampleResult "uawk" "sum.awk" 100000000,
      sampleResult "uawk" "count.awk" 400000000].map fun r => r.Mean) ≠ Float64.inf := by
    simp [sampleResult, product, fmul, MaxFloat64]
    norm_num
    intro h
    cases h
  exact ⟨⟨sampleLib_lawful, by decide, by decide, by decide, hfin⟩,
    WriteSummary_single sampleLib _ "uawk" sampleLib_lawful (by decide) (by decide) (by decide)
      hfin⟩

/-- C13 (counterexample): a single result with `Mean = 0`. The geometric mean is `0`, the ratio
is `0 / 0`, not a number, and the row loop stops at the conversion `int(10/ratio)`: there is no
row with ratio `1`. -/
theorem WriteSummary_single_counterexample :
    Lawful sampleLib ∧
    geoScore sampleLib ("uawk", [0]) = { name := "uawk", score := Float64.fin 0 } ∧
    fdiv (Float64.fin 0) (Float64.fin 0) = Float64.nan ∧
    WriteSummary sampleLib [sampleResult "uawk" "sum.awk" 0] = ([], Exit.unspecified) ∧
    WriteSummary sampleLib [sampleResult "uawk" "sum.awk" 0] ≠
      ([{ rank := 1, name := "uawk", ratio := Float64.fin 1, bar := 10 }], Exit.ok) := by
  have hW : WriteSummary sampleLib [sampleResult "uawk" "sum.awk" 0] = ([], Exit.unspecified) := by
    simp [WriteSummary, sampleLib, sampleResult, groupByAWK, groupInsert, geoScore, product,
      fmul, MaxFloat64, samplePow, emitRows, fdiv, barCount]
    norm_num [emitRows, fdiv, barCount]
  refine ⟨sampleLib_lawful, ?_, ?_, hW, ?_⟩
  · simp [geoScore, sampleLib, product, fmul, MaxFloat64, samplePow]
    norm_num
  · simp [fdiv]
  · rw [hW]
    simp


/-! ## Order independence, in binary64 -/

theorem calculateStats64_eq (awkName program : String) {durations : List Int}
    (h : durations ≠ []) (inputSize : Int) :
    calculateStats64 awkName program durations inputSize =
      some
        { AWK := awkName
          Program := program
          Runs := (durations.length : Int)
          Min := (scan durations).min
          Max := (scan durations).max
          Mean := div64 (scan durations).sum (durations.length : Int)
          Median := medianOf (sortDurations durations) durations.length
          StdDev := stdDev64 durations (div64 (scan durations).sum (durations.length : Int))
          Throughput :=
            throughputOf64 (div64 (scan durations).sum (durations.length : Int)) inputSize } := by
  have hn : durations.length ≠ 0 := fun h0 => h (List.length_eq_zero.mp h0)
  simp [calculateStats64, hn]

/-- The binary64 model and the exact one return the same integer statistics. -/
theorem calculateStats64_integer_fields (awkName program : String) {durations : List Int}
    (h : durations ≠ []) (inputSize : Int) :
    ∃ r r64, calculateStats awkName program durations inputSize = some r ∧
      calculateStats64 awkName program durations inputSize = some r64 ∧
      r64.Runs = r.Runs ∧ r64.Min = r.Min ∧ r64.Max = r.Max ∧ r64.Mean = r.Mean ∧
      r64.Median = r.Median :=
  ⟨_, _, calculateStats_eq awkName program h inputSize,
    calculateStats64_eq awkName program h inputSize, rfl, rfl, rfl, rfl, rfl⟩

/-- C3 (amended): `calculateStats`, with its `float64` operations in binary64, is invariant
under reordering of its input in every field but `StdDev`: for a non-empty sample sequence `s`,
a permutation `p` of it and any `inputSize`, both calls return a result and the two results have
the same `Runs`, `Min`, `Max`, `Mean`, `Median` and `Throughput`. -/
theorem calculateStats64_perm (awkName program : String) (s p : List Int) (inputSize : Int)
    (hne : s ≠ []) (hp : p.Perm s) :
    ∃ r1 r2, calculateStats64 awkName program s inputSize = some r1 ∧
      calculateStats64 awkName program p inputSize = some r2 ∧
      r1.Runs = r2.Runs ∧ r1.Min = r2.Min ∧ r1.Max = r2.Max ∧ r1.Mean = r2.Mean ∧
      r1.Median = r2.Median ∧ r1.Throughput = r2.Throughput := by
  have hpne : p ≠ [] := fun h => hne (by subst h; exact (List.Perm.nil_eq hp).symm)
  refine ⟨_, _, calculateStats64_eq awkName program hne inputSize,
    calculateStats64_eq awkName program hpne inputSize, ?_, ?_, ?_, ?_, ?_, ?_⟩
  · show (s.length : Int) = (p.length : Int)
    rw [hp.length_eq]
  · show (scan s).min = (scan p).min
    rw [scan_congr hp]
  · show (scan s).max = (scan p).max
    rw [scan_congr hp]
  · show div64 (scan s).sum (s.length : Int) = div64 (scan p).sum (p.length : Int)
    rw [scan_congr hp, hp.length_eq]
  · show medianOf (sortDurations s) s.length = medianOf (sortDurations p) p.length
    rw [sortDurations_congr hp, hp.length_eq]
  · show throughputOf64 (div64 (scan s).sum (s.length : Int)) inputSize =
      throughputOf64 (div64 (scan p).sum (p.length : Int)) inputSize
    rw [scan_congr hp, hp.length_eq]

/-- C3 (witness): `[300ms, 100ms, 200ms]` is a reordering of `[100ms, 200ms, 300ms]`. -/
theorem calculateStats64_perm_witness :
    (([100000000, 200000000, 300000000] : List Int) ≠ [] ∧
      List.Perm [300000000, 100000000, 200000000] ([100000000, 200000000, 300000000] : List Int)) ∧
    ∃ r1 r2,
      calculateStats64 "uawk" "sum.awk" [100000000, 200000000, 300000000] 314572800 = some r1 ∧
      calculateStats64 "uawk" "sum.awk" [300000000, 100000000, 200000000] 314572800 = some r2 ∧
      r1.Runs = r2.Runs ∧ r1.Min = r2.Min ∧ r1.Max = r2.Max ∧ r1.Mean = r2.Mean ∧
      r1.Median = r2.Median ∧ r1.Throughput = r2.Throughput :=
  ⟨⟨by decide, by decide⟩,
    calculateStats64_perm "uawk" "sum.awk" [100000000, 200000000, 300000000]
      [300000000, 100000000, 200000000] 314572800 (by decide) (by decide)⟩

/-- C3 (counterexample): the samples `15.2s, 18s, 3.9s` and their reordering `3.9s, 15.2s, 18s`.
The mean is `12366666666` ns for both; the squared deviations exceed `2^53`, so their rounded
sum depends on the order of the additions, and the returned `StdDev` is `18139105902778460` ns
for the first order and `18139105902778464` ns for the second. -/
theorem calculateStats64_perm_counterexample :
    List.Perm [3900000000, 15200000000, 18000000000]
      ([15200000000, 18000000000, 3900000000] : List Int) ∧
    ∃ r1 r2,
      calculateStats64 "uawk" "sum.awk" [15200000000, 18000000000, 3900000000] 1048576
        = some r1 ∧
      calculateStats64 "uawk" "sum.awk" [3900000000, 15200000000, 18000000000] 1048576
        = some r2 ∧
      r1.Mean = 12366666666 ∧ r2.Mean = 12366666666 ∧
      r1.StdDev = 18139105902778460 ∧ r2.StdDev = 18139105902778464 ∧
      r1.StdDev ≠ r2.StdDev := by
  have hm1 : div64 (scan [15200000000, 18000000000, 3900000000]).sum
      (([15200000000, 18000000000, 3900000000] : List Int).length : Int) = 12366666666 := by
    decide
  have hm2 : div64 (scan [3900000000, 15200000000, 18000000000]).sum
      (([3900000000, 15200000000, 18000000000] : List Int).length : Int) = 12366666666 := by
    decide
  have hs1 : stdDev64 [15200000000, 18000000000, 3900000000] 12366666666
      = 18139105902778460 := by decide!
  have hs2 : stdDev64 [3900000000, 15200000000, 18000000000] 12366666666
      = 18139105902778464 := by decide!
  refine ⟨by decide, _, _, calculateStats64_eq "uawk" "sum.awk" (by decide) 1048576,
    calculateStats64_eq "uawk" "sum.awk" (by decide) 1048576, hm1, hm2, ?_, ?_, ?_⟩
  · show stdDev64 _ (div64 _ _) = _
    rw [hm1, hs1]
  · show stdDev64 _ (div64 _ _) = _
    rw [hm2, hs2]
  · show stdDev64 _ (div64 _ _) ≠ stdDev64 _ (div64 _ _)
    rw [hm1, hm2, hs1, hs2]
    decide

end UawkBench
